import Mathlib

set_option maxHeartbeats 1000000

/-!
Verification development for the VizzAI frontend (src/frontend/src/App.js).

The JavaScript source is shallowly embedded: strings are `List Char`,
JS numbers appearing here are natural numbers (all relevant values are
non-negative integers), and the regex operations of the source are
embedded as deterministic character scanners that implement the exact
backtracking behaviour of the JS regex engine on the concrete patterns
appearing in the source.
-/

/- ## Character helpers -/

/-- A decimal digit, JS regex `\d` restricted to ASCII (ids and patterns here
are ASCII). -/
def isDig (c : Char) : Bool := '0' ≤ c && c ≤ '9'

/-- Numeric value of a digit character. -/
def dv (c : Char) : Nat := c.toNat - 48

/-- Digit character of a value below 10. -/
def digChar (d : Nat) : Char := Char.ofNat (48 + d)

/-- JS `\s` / whitespace for `trim`, restricted to the ASCII range. -/
def isSpaceChar (c : Char) : Bool :=
  c = ' ' || c = '\t' || c = '\n' || c = '\r' || c = '\x0b' || c = '\x0c'

/-- JS `String.prototype.trim`. -/
def trimChars (s : List Char) : List Char :=
  ((s.dropWhile isSpaceChar).reverse.dropWhile isSpaceChar).reverse

/-- Boolean test: `pat` is a prefix of `s` (literal fragment of a regex
matching at the current position). -/
def litAt : List Char → List Char → Bool
  | [], _ => true
  | _ :: _, [] => false
  | a :: as, b :: bs => a = b && litAt as bs

/-- Boolean test: `pat` occurs as a contiguous substring of `s`. -/
def hasSub (pat : List Char) : List Char → Bool
  | [] => litAt pat []
  | c :: cs => litAt pat (c :: cs) || hasSub pat cs

/- ## Decimal rendering and parsing (JS template literals / parseInt / Number) -/

/-- Fuel-driven decimal rendering; `fuel` at least `n` guarantees completion. -/
def natChars : Nat → Nat → List Char
  | 0, _ => []
  | fuel + 1, n =>
    if n < 10 then [digChar n]
    else natChars fuel (n / 10) ++ [digChar (n % 10)]

/-- Decimal rendering of a non-negative integer, JS `${n}`. -/
def natToChars (n : Nat) : List Char := natChars (n + 1) n

/-- Numeric value of a string of decimal digits; on all-digit input this
agrees with JS `Number(...)` and `parseInt(...)`. -/
def charsToNat (s : List Char) : Nat := s.foldl (fun a c => a * 10 + dv c) 0

/-- JS `padStart(2, '0')`. -/
def pad2 (s : List Char) : List Char :=
  if s.length < 2 then List.replicate (2 - s.length) '0' ++ s else s

/-- `String.prototype.split(sep)` for a single-character separator. -/
def splitOnChar (sep : Char) : List Char → List (List Char)
  | [] => [[]]
  | c :: cs =>
    if c = sep then [] :: splitOnChar sep cs
    else
      match splitOnChar sep cs with
      | [] => [[c]]
      | p :: ps => (c :: p) :: ps

/-- `parseTimeToSeconds` of App.js: split on `:`, three parts are `H:MM:SS`,
two parts are `MM:SS`, anything else yields 0. -/
def parseTimeToSeconds (ts : List Char) : Nat :=
  match (splitOnChar ':' ts).map charsToNat with
  | [h, m, s] => h * 3600 + m * 60 + s
  | [m, s] => m * 60 + s
  | _ => 0

/-- `formatTime` of App.js: seconds to `H:MM:SS`, hours unpadded,
minutes/seconds zero-padded to two digits. -/
def formatTime (s : Nat) : List Char :=
  natToChars (s / 3600) ++ ':' :: (pad2 (natToChars (s % 3600 / 60)) ++ ':' :: pad2 (natToChars (s % 60)))

/- ## getVideoId -/

/-- The character class `[^&\n?#]` of the capture groups in `getVideoId`. -/
def isStopChar (c : Char) : Bool := c = '&' || c = '\n' || c = '?' || c = '#'

/-- Leftmost match of a regex of the shape `lit([^&\n?#]+)`: scan for the
first position where the literal matches and is followed by at least one
non-stop character; the capture is the maximal run of non-stop characters. -/
def findMatch (lit : List Char) : List Char → Option (List Char)
  | [] => none
  | c :: cs =>
    if litAt lit (c :: cs) then
      let cap := (List.drop lit.length (c :: cs)).takeWhile (fun x => !isStopChar x)
      if cap.isEmpty then findMatch lit cs else some cap
    else findMatch lit cs

def watchLit : List Char := ("youtube.com/watch?v=").toList

def shortLit : List Char := ("youtu.be/").toList

def embedLit : List Char := ("youtube.com/embed/").toList

/-- `getVideoId` of App.js: try the three URL patterns in order. -/
def getVideoId (url : List Char) : Option (List Char) :=
  match findMatch watchLit url with
  | some v => some v
  | none =>
    match findMatch shortLit url with
    | some v => some v
    | none => findMatch embedLit url

/- ## Basic lemmas about the helpers -/

theorem dv_digChar {d : Nat} (h : d < 10) : dv (digChar d) = d := by
  interval_cases d <;> decide

theorem isDig_digChar {d : Nat} (h : d < 10) : isDig (digChar d) = true := by
  interval_cases d <;> decide

theorem digChar_ne_colon {d : Nat} (h : d < 10) : digChar d ≠ ':' := by
  interval_cases d <;> decide

theorem natChars_all_digits : ∀ fuel n c, c ∈ natChars fuel n → isDig c = true := by
  intro fuel
  induction fuel with
  | zero => intro n c h; simp [natChars] at h
  | succ fuel ih =>
    intro n c h
    simp only [natChars] at h
    split at h
    · next hn =>
      simp at h
      subst h
      exact isDig_digChar hn
    · next hn =>
      rcases List.mem_append.1 h with h1 | h1
      · exact ih _ _ h1
      · simp at h1
        subst h1
        exact isDig_digChar (Nat.mod_lt _ (by norm_num))

theorem natToChars_all_digits {n : Nat} {c : Char} (h : c ∈ natToChars n) :
    isDig c = true := natChars_all_digits _ _ _ h

theorem isDig_ne_colon {c : Char} (h : isDig c = true) : c ≠ ':' := by
  intro he; subst he; simp [isDig] at h

theorem charsToNat_go (l : List Char) (a : Nat) :
    l.foldl (fun a c => a * 10 + dv c) a =
      a * 10 ^ l.length + l.foldl (fun a c => a * 10 + dv c) 0 := by
  induction l generalizing a with
  | nil => simp
  | cons c cs ih =>
    simp only [List.foldl_cons, List.length_cons]
    rw [ih (a * 10 + dv c), ih (0 * 10 + dv c)]
    ring

theorem charsToNat_append (l1 l2 : List Char) :
    charsToNat (l1 ++ l2) = charsToNat l1 * 10 ^ l2.length + charsToNat l2 := by
  unfold charsToNat
  rw [List.foldl_append, charsToNat_go]

theorem charsToNat_natChars : ∀ fuel n, n ≤ fuel → charsToNat (natChars fuel n) = n := by
  intro fuel
  induction fuel with
  | zero => intro n h; interval_cases n; decide
  | succ fuel ih =>
    intro n h
    simp only [natChars]
    split
    · next hn =>
      show charsToNat [digChar n] = n
      simp [charsToNat, dv_digChar hn]
    · next hn =>
      push_neg at hn
      have hdiv : n / 10 ≤ fuel := by omega
      rw [charsToNat_append, ih _ hdiv]
      simp [charsToNat, dv_digChar (Nat.mod_lt n (by norm_num : (0:Nat) < 10))]
      omega

theorem charsToNat_natToChars (n : Nat) : charsToNat (natToChars n) = n :=
  charsToNat_natChars _ _ (Nat.le_succ n)

theorem charsToNat_pad2 (l : List Char) : charsToNat (pad2 l) = charsToNat l := by
  unfold pad2
  split
  · rw [charsToNat_append]
    have : ∀ k, charsToNat (List.replicate k '0') = 0 := by
      intro k
      induction k with
      | zero => rfl
      | succ k ih =>
        rw [List.replicate_succ, ← List.singleton_append, charsToNat_append, ih]
        norm_num [show charsToNat ['0'] = 0 from by decide]
    rw [this]
    simp
  · rfl

theorem pad2_all (l : List Char) (p : Char → Prop) (h0 : p '0') (hl : ∀ c ∈ l, p c) :
    ∀ c ∈ pad2 l, p c := by
  intro c hc
  unfold pad2 at hc
  split at hc
  · rcases List.mem_append.1 hc with h | h
    · rw [List.eq_of_mem_replicate h]; exact h0
    · exact hl _ h
  · exact hl _ hc

theorem splitOnChar_of_no_sep {sep : Char} :
    ∀ a : List Char, (∀ c ∈ a, c ≠ sep) → splitOnChar sep a = [a] := by
  intro a
  induction a with
  | nil => intro _; rfl
  | cons c cs ih =>
    intro h
    have hc : c ≠ sep := h c (by simp)
    simp only [splitOnChar, if_neg hc]
    rw [ih (fun x hx => h x (by simp [hx]))]

theorem splitOnChar_append_sep {sep : Char} :
    ∀ a rest : List Char, (∀ c ∈ a, c ≠ sep) →
      splitOnChar sep (a ++ sep :: rest) = a :: splitOnChar sep rest := by
  intro a
  induction a with
  | nil => intro rest _; simp [splitOnChar]
  | cons c cs ih =>
    intro rest h
    have hc : c ≠ sep := h c (by simp)
    simp only [List.cons_append, splitOnChar, if_neg hc, List.append_eq]
    rw [ih rest (fun x hx => h x (by simp [hx]))]

/-- C9 round-trip: `parseTimeToSeconds (formatTime s) = s` for every
non-negative integer `s`. -/
theorem c9_time_roundtrip (s : Nat) : parseTimeToSeconds (formatTime s) = s := by
  unfold formatTime parseTimeToSeconds
  have hnoH : ∀ c ∈ natToChars (s / 3600), c ≠ ':' :=
    fun c hc => isDig_ne_colon (natToChars_all_digits hc)
  have hnoM : ∀ c ∈ pad2 (natToChars (s % 3600 / 60)), c ≠ ':' :=
    pad2_all _ _ (by decide) (fun c hc => isDig_ne_colon (natToChars_all_digits hc))
  have hnoS : ∀ c ∈ pad2 (natToChars (s % 60)), c ≠ ':' :=
    pad2_all _ _ (by decide) (fun c hc => isDig_ne_colon (natToChars_all_digits hc))
  rw [splitOnChar_append_sep _ _ hnoH, splitOnChar_append_sep _ _ hnoM,
    splitOnChar_of_no_sep _ hnoS]
  simp only [List.map_cons, List.map_nil]
  rw [charsToNat_natToChars, charsToNat_pad2, charsToNat_pad2,
    charsToNat_natToChars, charsToNat_natToChars]
  omega

/- ## Lemmas about literal matching and findMatch -/

theorem litAt_iff_append {a : List Char} :
    ∀ {b : List Char}, litAt a b = true ↔ ∃ t, b = a ++ t := by
  induction a with
  | nil => intro b; simp [litAt]
  | cons x xs ih =>
    intro b
    cases b with
    | nil => simp [litAt]
    | cons y ys =>
      simp only [litAt, Bool.and_eq_true, decide_eq_true_eq, ih, List.cons_append]
      constructor
      · rintro ⟨rfl, t, rfl⟩; exact ⟨t, rfl⟩
      · rintro ⟨t, h⟩
        injection h with h1 h2
        exact ⟨h1.symm, t, h2⟩

theorem litAt_append_self (a b : List Char) : litAt a (a ++ b) = true :=
  litAt_iff_append.2 ⟨b, rfl⟩

theorem litAt_mem {a b : List Char} (h : litAt a b = true) : ∀ x ∈ a, x ∈ b := by
  obtain ⟨t, rfl⟩ := litAt_iff_append.1 h
  intro x hx
  exact List.mem_append.2 (Or.inl hx)

/-- A mismatch between `lit` and `s` occurring strictly inside `s`: then no
extension of `s` lets `lit` match at this position. -/
def litFailsEarly : List Char → List Char → Bool
  | [], _ => false
  | _ :: _, [] => false
  | a :: as, b :: bs => if a = b then litFailsEarly as bs else true

theorem litAt_eq_false_of_failsEarly :
    ∀ {lit s : List Char}, litFailsEarly lit s = true → ∀ t, litAt lit (s ++ t) = false := by
  intro lit
  induction lit with
  | nil => intro s h; simp [litFailsEarly] at h
  | cons a as ih =>
    intro s h t
    cases s with
    | nil => simp [litFailsEarly] at h
    | cons b bs =>
      simp only [litFailsEarly] at h
      by_cases hab : a = b
      · rw [if_pos hab] at h
        subst hab
        simp [List.cons_append, litAt, ih h]
      · simp [List.cons_append, litAt, hab]

theorem findMatch_skip (lit : List Char) :
    ∀ (pre s : List Char),
      (∀ i, i < pre.length → litFailsEarly lit (pre.drop i) = true) →
      findMatch lit (pre ++ s) = findMatch lit s := by
  intro pre
  induction pre with
  | nil => intro s _; rfl
  | cons c cs ih =>
    intro s h
    have h0 : litFailsEarly lit (c :: cs) = true := h 0 (by simp)
    have hfail : litAt lit ((c :: cs) ++ s) = false :=
      litAt_eq_false_of_failsEarly h0 s
    rw [List.cons_append] at hfail
    rw [List.cons_append, findMatch, hfail]
    simp only [Bool.false_eq_true, if_false]
    refine ih s (fun i hi => ?_)
    have := h (i + 1) (by simp only [List.length_cons]; omega)
    simpa [List.drop_succ_cons] using this

theorem takeWhile_of_all {p : Char → Bool} :
    ∀ {l : List Char}, (∀ x ∈ l, p x = true) → l.takeWhile p = l := by
  intro l
  induction l with
  | nil => intro _; rfl
  | cons c cs ih =>
    intro h
    rw [List.takeWhile_cons, if_pos (h c (by simp))]
    rw [ih (fun x hx => h x (by simp [hx]))]

theorem findMatch_pos (lit v : List Char) (hlit : lit ≠ [])
    (hv : v ≠ []) (hall : ∀ c ∈ v, isStopChar c = false) :
    findMatch lit (lit ++ v) = some v := by
  obtain ⟨a, as, rfl⟩ : ∃ a as, lit = a :: as := by
    cases lit with
    | nil => exact absurd rfl hlit
    | cons a as => exact ⟨a, as, rfl⟩
  rw [List.cons_append, findMatch, ← List.cons_append, litAt_append_self, List.drop_left]
  rw [takeWhile_of_all (by intro x hx; simp [hall x hx])]
  simp [hv]

/-- Characterization of `findMatch`: a match exists iff the literal occurs
followed by at least one non-stop character. -/
def occursCap (lit url : List Char) : Prop :=
  ∃ pre c rest, url = pre ++ lit ++ c :: rest ∧ isStopChar c = false

theorem findMatch_isSome_iff (lit : List Char) :
    ∀ url, (findMatch lit url).isSome = true ↔ occursCap lit url := by
  intro url
  induction url with
  | nil =>
    simp only [findMatch, Option.isSome_none, Bool.false_eq_true, false_iff]
    rintro ⟨pre, c, rest, heq, -⟩
    have := congrArg List.length heq
    simp at this
    omega
  | cons x xs ih =>
    rw [findMatch]
    cases hlit : litAt lit (x :: xs) with
    | false =>
      simp only [Bool.false_eq_true, if_false]
      rw [ih]
      constructor
      · rintro ⟨pre, c, rest, heq, hc⟩
        exact ⟨x :: pre, c, rest, by simp [heq], hc⟩
      · rintro ⟨pre, c, rest, heq, hc⟩
        cases pre with
        | nil =>
          simp only [List.nil_append] at heq
          rw [heq] at hlit
          rw [show lit ++ c :: rest = lit ++ [c] ++ rest by simp] at hlit
          rw [show lit ++ [c] ++ rest = lit ++ ([c] ++ rest) by simp, litAt_append_self] at hlit
          exact absurd hlit (by simp)
        | cons y pre =>
          injection heq with h1 h2
          exact ⟨pre, c, rest, h2, hc⟩
    | true =>
      simp only [if_true]
      obtain ⟨t, ht⟩ := litAt_iff_append.1 hlit
      cases hcap : (List.takeWhile (fun x => !isStopChar x) (List.drop lit.length (x :: xs))).isEmpty with
      | false =>
        simp only [Bool.false_eq_true, if_false, Option.isSome_some, true_iff]
        have hdrop : List.drop lit.length (x :: xs) = t := by rw [ht, List.drop_left]
        rw [hdrop] at hcap
        cases t with
        | nil => simp at hcap
        | cons z zs =>
          rw [List.takeWhile_cons] at hcap
          cases hz : !isStopChar z with
          | false => rw [hz] at hcap; simp at hcap
          | true =>
            refine ⟨[], z, zs, by simpa using ht, ?_⟩
            simpa using hz
      | true =>
        simp only [if_true]
        rw [ih]
        have hdrop : List.drop lit.length (x :: xs) = t := by rw [ht, List.drop_left]
        rw [hdrop] at hcap
        constructor
        · rintro ⟨pre, c, rest, heq, hc⟩
          exact ⟨x :: pre, c, rest, by simp [heq], hc⟩
        · rintro ⟨pre, c, rest, heq, hc⟩
          cases pre with
          | nil =>
            exfalso
            simp only [List.nil_append] at heq
            have h5 : t = c :: rest := by
              have h4 := heq.symm.trans ht
              rw [List.append_right_inj] at h4
              exact h4.symm
            rw [h5, List.takeWhile_cons] at hcap
            rw [show (!isStopChar c) = true by simp [hc]] at hcap
            simp at hcap
          | cons y pre =>
            injection heq with h1 h2
            exact ⟨pre, c, rest, h2, hc⟩

theorem findMatch_none_of_absent {lit s : List Char} {bad : Char}
    (hin : bad ∈ lit) (hout : bad ∉ s) : findMatch lit s = none := by
  cases hm : findMatch lit s with
  | none => rfl
  | some v =>
    exfalso
    have : (findMatch lit s).isSome = true := by rw [hm]; rfl
    obtain ⟨pre, c, rest, heq, -⟩ := (findMatch_isSome_iff lit s).1 this
    exact hout (by rw [heq]; simp [hin])

/- ## C4: video identity normalization -/

/-- Characters that can appear in a YouTube video id. -/
def isVideoIdChar (c : Char) : Bool := c.isAlphanum || c = '-' || c = '_'

theorem idchar_not_stop {c : Char} (h : isVideoIdChar c = true) : isStopChar c = false := by
  cases hs : isStopChar c with
  | false => rfl
  | true =>
    exfalso
    simp only [isStopChar, Bool.or_eq_true, decide_eq_true_eq] at hs
    rcases hs with ((h1 | h1) | h1) | h1 <;> (subst h1; exact absurd h (by decide))

theorem idchar_not_mem {v : List Char} (hid : ∀ c ∈ v, isVideoIdChar c = true)
    {bad : Char} (hbad : isVideoIdChar bad = false) : bad ∉ v := by
  intro hm
  have := hid bad hm
  rw [hbad] at this
  exact absurd this (by simp)

theorem getVideoId_watch (v : List Char) (hne : v ≠ [])
    (hid : ∀ c ∈ v, isVideoIdChar c = true) :
    getVideoId (("https://www.youtube.com/watch?v=").toList ++ v) = some v := by
  have hall : ∀ c ∈ v, isStopChar c = false := fun c hc => idchar_not_stop (hid c hc)
  have hmain : findMatch watchLit (("https://www.youtube.com/watch?v=").toList ++ v) = some v := by
    rw [show ("https://www.youtube.com/watch?v=").toList = ("https://www.").toList ++ watchLit from rfl,
      List.append_assoc,
      findMatch_skip watchLit (("https://www.").toList) _ (by decide),
      findMatch_pos _ _ (by decide) hne hall]
  unfold getVideoId
  rw [hmain]

theorem getVideoId_short (v : List Char) (hne : v ≠ [])
    (hid : ∀ c ∈ v, isVideoIdChar c = true) :
    getVideoId (("https://youtu.be/").toList ++ v) = some v := by
  have hall : ∀ c ∈ v, isStopChar c = false := fun c hc => idchar_not_stop (hid c hc)
  have h1 : findMatch watchLit (("https://youtu.be/").toList ++ v) = none := by
    refine findMatch_none_of_absent (show ('?') ∈ watchLit by decide) ?_
    intro hm
    rcases List.mem_append.1 hm with h | h
    · exact absurd h (by decide)
    · exact idchar_not_mem hid (by decide) h
  have h2 : findMatch shortLit (("https://youtu.be/").toList ++ v) = some v := by
    rw [show ("https://youtu.be/").toList = ("https://").toList ++ shortLit from rfl,
      List.append_assoc,
      findMatch_skip shortLit (("https://").toList) _ (by decide),
      findMatch_pos _ _ (by decide) hne hall]
  unfold getVideoId
  rw [h1, h2]

theorem getVideoId_embed (v : List Char) (hne : v ≠ [])
    (hid : ∀ c ∈ v, isVideoIdChar c = true) :
    getVideoId (("https://www.youtube.com/embed/").toList ++ v) = some v := by
  have hall : ∀ c ∈ v, isStopChar c = false := fun c hc => idchar_not_stop (hid c hc)
  have h1 : findMatch watchLit (("https://www.youtube.com/embed/").toList ++ v) = none := by
    refine findMatch_none_of_absent (show ('?') ∈ watchLit by decide) ?_
    intro hm
    rcases List.mem_append.1 hm with h | h
    · exact absurd h (by decide)
    · exact idchar_not_mem hid (by decide) h
  have h2 : findMatch shortLit (("https://www.youtube.com/embed/").toList ++ v) = none := by
    rw [findMatch_skip shortLit (("https://www.youtube.com/embed/").toList) _ (by decide)]
    exact findMatch_none_of_absent (show ('.') ∈ shortLit by decide)
      (idchar_not_mem hid (by decide))
  have h3 : findMatch embedLit (("https://www.youtube.com/embed/").toList ++ v) = some v := by
    rw [show ("https://www.youtube.com/embed/").toList = ("https://www.").toList ++ embedLit from rfl,
      List.append_assoc,
      findMatch_skip embedLit (("https://www.").toList) _ (by decide),
      findMatch_pos _ _ (by decide) hne hall]
  unfold getVideoId
  rw [h1, h2, h3]

theorem getVideoId_none_iff (url : List Char) :
    getVideoId url = none ↔
      ¬ occursCap watchLit url ∧ ¬ occursCap shortLit url ∧ ¬ occursCap embedLit url := by
  unfold getVideoId
  cases hm1 : findMatch watchLit url with
  | some v =>
    have hocc : occursCap watchLit url :=
      (findMatch_isSome_iff watchLit url).1 (by rw [hm1]; rfl)
    simp [hocc]
  | none =>
    have hnocc1 : ¬ occursCap watchLit url := fun hc => by
      have h := (findMatch_isSome_iff watchLit url).2 hc
      rw [hm1] at h
      exact absurd h (by simp)
    cases hm2 : findMatch shortLit url with
    | some v =>
      have hocc : occursCap shortLit url :=
        (findMatch_isSome_iff shortLit url).1 (by rw [hm2]; rfl)
      simp [hocc]
    | none =>
      have hnocc2 : ¬ occursCap shortLit url := fun hc => by
        have h := (findMatch_isSome_iff shortLit url).2 hc
        rw [hm2] at h
        exact absurd h (by simp)
      cases hm3 : findMatch embedLit url with
      | some v =>
        have hocc : occursCap embedLit url :=
          (findMatch_isSome_iff embedLit url).1 (by rw [hm3]; rfl)
        simp [hocc]
      | none =>
        have hnocc3 : ¬ occursCap embedLit url := fun hc => by
          have h := (findMatch_isSome_iff embedLit url).2 hc
          rw [hm3] at h
          exact absurd h (by simp)
        simp [hnocc1, hnocc2, hnocc3]

/-- C4: video identity normalization collapses the watch, short and embed
URL forms of the same id to the same key, and yields none exactly when no
pattern occurs in the string (each pattern occurrence being the pattern
literal followed by at least one non-delimiter character). -/
theorem c4_video_identity :
    (∀ v : List Char, v ≠ [] → (∀ c ∈ v, isVideoIdChar c = true) →
      getVideoId (("https://www.youtube.com/watch?v=").toList ++ v) = some v ∧
      getVideoId (("https://youtu.be/").toList ++ v) = some v ∧
      getVideoId (("https://www.youtube.com/embed/").toList ++ v) = some v) ∧
    (∀ url : List Char,
      getVideoId url = none ↔
        ¬ occursCap watchLit url ∧ ¬ occursCap shortLit url ∧ ¬ occursCap embedLit url) :=
  ⟨fun v hne hid =>
    ⟨getVideoId_watch v hne hid, getVideoId_short v hne hid, getVideoId_embed v hne hid⟩,
   getVideoId_none_iff⟩

/- ## Data model: chapters and transcript segments -/

structure Chapter where
  time : List Char
  title : List Char
  seconds : Nat
deriving DecidableEq

/-- A transcript segment as consumed by `createTimestampsFromTranscript`:
optional fields mirror JS optional chaining, an absent or empty string is
falsy. -/
structure Segment where
  text : Option (List Char)
  start_formatted : Option (List Char)
  end_formatted : Option (List Char)
deriving DecidableEq

/-- JS truthiness of an optional string. -/
def truthy (o : Option (List Char)) : Bool :=
  match o with
  | none => false
  | some s => !s.isEmpty

/- ## The structural chapter strategy (createTimestampsFromTranscript) -/

/-- Case-insensitive literal match at the head (JS `i` flag on ASCII). -/
def ciLitAt : List Char → List Char → Bool
  | [], _ => true
  | _ :: _, [] => false
  | a :: as, b :: bs => (a.toLower = b.toLower) && ciLitAt as bs

/-- Lead-in alternatives of `^(welcome to|hello|hi there|today we|in this)`. -/
def leadIns : List (List Char) :=
  [("welcome to").toList, ("hello").toList, ("hi there").toList,
   ("today we").toList, ("in this").toList]

/-- First replace of the title pipeline: strip a boilerplate lead-in. -/
def stripLeadIns (s : List Char) : List Char :=
  match leadIns.find? (fun a => ciLitAt a s) with
  | some a => s.drop a.length
  | none => s

/-- Alternatives of the second replace `^(fact|number|tip)( \d+)?:?`. -/
def factWords : List (List Char) :=
  [("fact").toList, ("number").toList, ("tip").toList]

/-- Second replace of the title pipeline: strip `fact`/`number`/`tip`, an
optional space-and-number group and an optional colon. -/
def stripFactNum (s : List Char) : List Char :=
  match factWords.find? (fun a => ciLitAt a s) with
  | none => s
  | some a =>
    let rest := s.drop a.length
    let rest2 :=
      match rest with
      | ' ' :: r =>
        let ds := r.takeWhile isDig
        if ds.isEmpty then rest else r.drop ds.length
      | _ => rest
    match rest2 with
    | ':' :: r => r
    | _ => rest2

/-- Stop words filtered out of candidate titles. -/
def stopWords : List (List Char) :=
  [("the").toList, ("and").toList, ("but").toList, ("for").toList,
   ("are").toList, ("will").toList, ("can").toList, ("you").toList,
   ("your").toList]

def lowerChars (s : List Char) : List Char := s.map Char.toLower

/-- `title.split(' ')` filtered to significant words. -/
def titleWords (t : List Char) : List (List Char) :=
  (splitOnChar ' ' t).filter
    (fun w => decide (2 < w.length) && !(stopWords.contains (lowerChars w)))

/-- `join(' ')`. -/
def joinSpace (ws : List (List Char)) : List Char := List.intercalate [' '] ws

/-- Structural-strategy truncation: over 30 characters becomes 27 plus `...`. -/
def trunc30 (t : List Char) : List Char :=
  if 30 < t.length then t.take 27 ++ ("...").toList else t

/-- Generative-strategy truncation: over 40 characters becomes 37 plus `...`. -/
def trunc40 (t : List Char) : List Char :=
  if 40 < t.length then t.take 37 ++ ("...").toList else t

/-- Seconds denoted by a segment's `start_formatted`. -/
def startSec (seg : Segment) : Nat := parseTimeToSeconds (seg.start_formatted.getD [])

/-- Seconds denoted by a segment's `end_formatted`. -/
def endSec (seg : Segment) : Nat := parseTimeToSeconds (seg.end_formatted.getD [])

/-- Candidate title of a bucket: trim the segment text, strip the lead-in
and fact/number/tip prefixes, keep the first three significant words. -/
def bucketTitle (seg : Segment) : List Char :=
  joinSpace
    ((titleWords (stripFactNum (stripLeadIns (trimChars (seg.text.getD []))))).take 3)

/-- The body of the bucket loop of `createTimestampsFromTranscript` for one
visited segment. -/
def mkBucketChapter (seg : Segment) : Option Chapter :=
  if truthy seg.text && truthy seg.start_formatted then
    if 3 < (bucketTitle seg).length then
      some { time := seg.start_formatted.getD [], title := trunc30 (bucketTitle seg),
             seconds := startSec seg }
    else none
  else none

/-- `segmentsPerChapter = Math.max(50, Math.floor(totalSegments / 15))`. -/
def stride (n : Nat) : Nat := max 50 (n / 15)

/-- The `for (let i = 0; i < totalSegments; i += segmentsPerChapter)` loop. -/
def chapterLoop (data : List Segment) (i : Nat) : List Chapter :=
  if h : i < data.length then
    match mkBucketChapter (data.get ⟨i, h⟩) with
    | some ch => ch :: chapterLoop data (i + stride data.length)
    | none => chapterLoop data (i + stride data.length)
  else []
termination_by data.length - i
decreasing_by
  all_goals
    (have h50 : 50 ≤ stride data.length := Nat.le_max_left _ _; omega)

/-- The trailing `Conclusion` chapter. -/
def conclusionChapters (data : List Segment) : List Chapter :=
  match data.getLast? with
  | none => []
  | some lastSeg =>
    if truthy lastSeg.end_formatted then
      [{ time := lastSeg.end_formatted.getD [],
         title := ("Conclusion").toList,
         seconds := endSec lastSeg }]
    else []

/-- `createTimestampsFromTranscript` of App.js (the chapter value it
computes and stores via `setTimestamps`). -/
def createTimestampsFromTranscript (data : List Segment) : List Chapter :=
  chapterLoop data 0 ++ conclusionChapters data

/- ## The structural strategy restated bucket-wise (spec reading) -/

/-- Number of buckets: the ceiling of `n / k`. -/
def bucketCount (n k : Nat) : Nat := (n + k - 1) / k

/-- The structural strategy as the specification words it: visit the first
segment of each of `ceil(n/k)` buckets of size `k = max(50, n/15)`, keep the
derived chapters, and append the final Conclusion chapter. -/
def structuralSpec (data : List Segment) : List Chapter :=
  ((List.range (bucketCount data.length (stride data.length))).map
      (fun j => j * stride data.length)).filterMap
    (fun i => (data.get? i).bind mkBucketChapter)
    ++ conclusionChapters data

theorem bucketCount_zero {k : Nat} (hk : 0 < k) : bucketCount 0 k = 0 := by
  unfold bucketCount
  exact Nat.div_eq_of_lt (by omega)

theorem bucketCount_succ {m k : Nat} (hm : 0 < m) (hk : 0 < k) :
    bucketCount m k = bucketCount (m - k) k + 1 := by
  unfold bucketCount
  by_cases hmk : m ≤ k
  · have h1 : m - k = 0 := by omega
    rw [h1]
    have h2 : (m + k - 1) / k = 1 := by
      rw [show m + k - 1 = (m - 1) + k by omega, Nat.add_div_right _ hk,
        Nat.div_eq_of_lt (by omega)]
    rw [h2, Nat.div_eq_of_lt (by omega : 0 + k - 1 < k)]
  · push_neg at hmk
    rw [show m + k - 1 = (m - k + k - 1) + k by omega, Nat.add_div_right _ hk]

theorem chapterLoop_eq_buckets (data : List Segment) :
    ∀ i, chapterLoop data i =
      ((List.range (bucketCount (data.length - i) (stride data.length))).map
          (fun j => i + j * stride data.length)).filterMap
        (fun idx => (data.get? idx).bind mkBucketChapter) := by
  intro i
  have hk : 0 < stride data.length := lt_of_lt_of_le (by norm_num) (Nat.le_max_left _ _)
  by_cases h : i < data.length
  case neg =>
    rw [chapterLoop, dif_neg h]
    have h0 : data.length - i = 0 := by omega
    rw [h0, bucketCount_zero hk]
    simp
  case pos =>
    have hm : 0 < data.length - i := by omega
    rw [chapterLoop, dif_pos h, bucketCount_succ hm hk, List.range_succ_eq_map]
    have harith : data.length - i - stride data.length =
        data.length - (i + stride data.length) := by omega
    have ih := chapterLoop_eq_buckets data (i + stride data.length)
    simp only [List.map_cons, List.filterMap_cons, Nat.zero_mul, Nat.add_zero,
      List.map_map]
    rw [List.get?_eq_get h]
    simp only [Option.some_bind]
    have hmapeq :
        (List.map ((fun j => i + j * stride data.length) ∘ Nat.succ)
            (List.range (bucketCount (data.length - i - stride data.length) (stride data.length)))) =
        (List.map (fun j => i + stride data.length + j * stride data.length)
            (List.range (bucketCount (data.length - (i + stride data.length)) (stride data.length)))) := by
      rw [harith]
      refine List.map_congr_left ?_
      intro j hj
      simp [Function.comp, Nat.succ_mul]
      ring
    cases hmb : mkBucketChapter (data.get ⟨i, h⟩) with
    | some ch => rw [hmapeq, ← ih]
    | none => rw [hmapeq, ← ih]
termination_by i => data.length - i
decreasing_by
  have h50 : 50 ≤ stride data.length := Nat.le_max_left _ _
  omega

/- ## The generative chapter parser (generateAITimestamps) -/

/-- The numeric groups and raw title captured by one match of
`(\d{1,2}):(\d{2}):(\d{2})\s*[-–]\s*(.+)`. -/
structure ChapParts where
  hN : Nat
  mN : Nat
  sN : Nat
  rawTitle : List Char
deriving DecidableEq

/-- Line-terminator characters excluded by `.` in JS regexes. -/
def crlf (c : Char) : Bool := c = '\r' || c = '\n'

/-- Capture of the trailing `\s*(.+)` at the position after the separator:
the greedy space run backs off just enough for `.+` (which excludes CR/LF)
to match at least one character. -/
def titleFrom (cs2 : List Char) : Option (List Char) :=
  if (cs2.dropWhile isSpaceChar).isEmpty then
    match cs2.reverse.dropWhile crlf with
    | [] => none
    | c :: _ => some [c]
  else some ((cs2.dropWhile isSpaceChar).takeWhile (fun c => !crlf c))

/-- Match of `[-–]\s*(.+)` at the position after the greedy space run that
follows the seconds group. -/
def chapSep (hN mN sN : Nat) : List Char → Option ChapParts
  | sep :: cs2 =>
    if sep = '-' || sep = '–' then
      match titleFrom cs2 with
      | some title => some ⟨hN, mN, sN, title⟩
      | none => none
    else none
  | [] => none

/-- Match of `:(\d{2}):(\d{2})\s*[-–]\s*(.+)` after the hour group. -/
def chapTail (hN : Nat) : List Char → Option ChapParts
  | ':' :: m1 :: m2 :: ':' :: s1 :: s2 :: cs =>
    if isDig m1 && isDig m2 && isDig s1 && isDig s2 then
      chapSep hN (dv m1 * 10 + dv m2) (dv s1 * 10 + dv s2) (cs.dropWhile isSpaceChar)
    else none
  | _ => none

/-- Match attempt of the chapter-line pattern at one position, with the
greedy-then-backtracking hour group `\d{1,2}`. -/
def tryChap : List Char → Option ChapParts
  | d1 :: d2 :: cs2 =>
    if isDig d1 then
      if isDig d2 then
        match chapTail (dv d1 * 10 + dv d2) cs2 with
        | some p => some p
        | none => chapTail (dv d1) (d2 :: cs2)
      else chapTail (dv d1) (d2 :: cs2)
    else none
  | _ => none

/-- Leftmost match of the chapter-line pattern (JS `line.match(...)`). -/
def scanChap : List Char → Option ChapParts
  | [] => none
  | c :: cs =>
    match tryChap (c :: cs) with
    | some p => some p
    | none => scanChap cs

/-- `replace(/\*\*/g, '')`: remove the occurrences of `**` left to right. -/
def removeStarStar : List Char → List Char
  | [] => []
  | [c] => [c]
  | c :: c2 :: rest =>
    if c = '*' then
      if c2 = '*' then removeStarStar rest else c :: removeStarStar (c2 :: rest)
    else c :: removeStarStar (c2 :: rest)

/-- The `displayTime` template of `generateAITimestamps`. -/
def renderTime (h m s : Nat) : List Char :=
  natToChars h ++ ':' :: (pad2 (natToChars m) ++ ':' :: pad2 (natToChars s))

/-- The chapter pushed for one accepted line. -/
def mkChapterFromParts (p : ChapParts) : Chapter :=
  { time := renderTime p.hN p.mN p.sN,
    title := trunc40 (removeStarStar (trimChars p.rawTitle)),
    seconds := p.hN * 3600 + p.mN * 60 + p.sN }

/-- Chapter contributed by one line of the answer, if any. -/
def parseChapterLine (line : List Char) : Option Chapter :=
  (scanChap line).map mkChapterFromParts

/-- The timestamp list computed by `generateAITimestamps` from an answer
text: split on newlines, parse each line, keep the matches in order. -/
def parseAIAnswer (ans : List Char) : List Chapter :=
  (splitOnChar '\n' ans).filterMap parseChapterLine

/- ## C7: the structural walk equals its bucket-wise reading -/

/-- C7: the structural strategy walks the segment list at stride
`max(50, n/15)`, deriving for each visited segment with truthy text and
start time a title by the strip-and-take-three-words pipeline (dropping
buckets whose title has length at most 3), and appends a Conclusion chapter
at the last segment's end time when that segment carries one; this is
exactly the bucket-wise reading `structuralSpec`. -/
theorem c7_structural_walk (data : List Segment) :
    createTimestampsFromTranscript data = structuralSpec data := by
  unfold createTimestampsFromTranscript structuralSpec
  rw [chapterLoop_eq_buckets data 0]
  simp

/- ## C2: chapter ordering -/

theorem mkBucketChapter_seconds {seg : Segment} {ch : Chapter}
    (h : mkBucketChapter seg = some ch) : ch.seconds = startSec seg := by
  unfold mkBucketChapter at h
  split at h
  · split at h
    · simp only [Option.some.injEq] at h
      subst h
      rfl
    · exact absurd h (by simp)
  · exact absurd h (by simp)

theorem conclusionChapters_split (data : List Segment) :
    conclusionChapters data = [] ∨
      ∃ lastSeg, data.getLast? = some lastSeg ∧ truthy lastSeg.end_formatted = true ∧
        conclusionChapters data =
          [{ time := lastSeg.end_formatted.getD [], title := ("Conclusion").toList,
             seconds := endSec lastSeg }] := by
  unfold conclusionChapters
  cases hgl : data.getLast? with
  | none => exact Or.inl rfl
  | some lastSeg =>
    cases htr : truthy lastSeg.end_formatted with
    | false => exact Or.inl (by simp [htr])
    | true => exact Or.inr ⟨lastSeg, rfl, htr, by simp [htr]⟩

theorem chapterLoop_mem {data : List Segment} {i : Nat} {ch : Chapter}
    (h : ch ∈ chapterLoop data i) :
    ∃ j seg, i ≤ j ∧ data.get? j = some seg ∧ mkBucketChapter seg = some ch := by
  rw [chapterLoop_eq_buckets] at h
  rcases List.mem_filterMap.1 h with ⟨idx, hidx, hbind⟩
  rcases List.mem_map.1 hidx with ⟨j, hj, rfl⟩
  rcases Option.bind_eq_some.1 hbind with ⟨seg, hget, hmk⟩
  exact ⟨i + j * stride data.length, seg, by omega, hget, hmk⟩

theorem mem_of_getLast? {α : Type} : ∀ {l : List α} {a : α}, l.getLast? = some a → a ∈ l := by
  intro l
  induction l with
  | nil => intro a h; exact absurd h (by simp)
  | cons x xs ih =>
    intro a h
    cases xs with
    | nil =>
      simp only [List.getLast?_singleton, Option.some.injEq] at h
      simp [h]
    | cons y ys =>
      rw [List.getLast?_cons_cons] at h
      exact List.mem_cons_of_mem x (ih h)

theorem chapterLoop_chain (data : List Segment)
    (hsort : ∀ j1 j2 seg1 seg2, j1 ≤ j2 → data.get? j1 = some seg1 →
      data.get? j2 = some seg2 → startSec seg1 ≤ startSec seg2) :
    ∀ i, List.Chain' (fun a b => a.seconds ≤ b.seconds) (chapterLoop data i) := by
  intro i
  by_cases h : i < data.length
  case neg =>
    rw [chapterLoop, dif_neg h]
    exact List.chain'_nil
  case pos =>
    have ih := chapterLoop_chain data hsort (i + stride data.length)
    rw [chapterLoop, dif_pos h]
    cases hmb : mkBucketChapter (data.get ⟨i, h⟩) with
    | none => exact ih
    | some ch =>
      rw [List.chain'_cons']
      refine ⟨?_, ih⟩
      intro b hb
      have hbmem : b ∈ chapterLoop data (i + stride data.length) := by
        cases hl : chapterLoop data (i + stride data.length) with
        | nil =>
          rw [hl] at hb
          exact absurd hb (by simp)
        | cons z zs =>
          rw [hl] at hb
          simp only [List.head?_cons, Option.mem_some_iff] at hb
          exact List.mem_cons.2 (Or.inl hb.symm)
      obtain ⟨j, seg, hij, hget, hmk⟩ := chapterLoop_mem hbmem
      rw [mkBucketChapter_seconds hmb, mkBucketChapter_seconds hmk]
      exact hsort i j _ _ (by omega) (by rw [List.get?_eq_get h]) hget
termination_by i => data.length - i
decreasing_by
  have h50 : 50 ≤ stride data.length := Nat.le_max_left _ _
  omega

/-- C2 (amended, structural part): on a segment list whose parsed start
times are monotone in index order and bounded by the parsed end time of the
last segment, the structural strategy yields chapters with non-decreasing
seconds, and when the last segment carries a truthy `end_formatted` the
final chapter's seconds equal that end time. -/
theorem c2_chapter_ordering (data : List Segment)
    (hsort : ∀ j1 j2 seg1 seg2, j1 ≤ j2 → data.get? j1 = some seg1 →
      data.get? j2 = some seg2 → startSec seg1 ≤ startSec seg2)
    (hlast : ∀ j seg lastSeg, data.get? j = some seg →
      data.getLast? = some lastSeg → startSec seg ≤ endSec lastSeg) :
    List.Chain' (fun a b => a.seconds ≤ b.seconds) (createTimestampsFromTranscript data) ∧
    (∀ lastSeg, data.getLast? = some lastSeg → truthy lastSeg.end_formatted = true →
      (createTimestampsFromTranscript data).getLast?.map Chapter.seconds =
        some (endSec lastSeg)) := by
  constructor
  · unfold createTimestampsFromTranscript
    rw [List.chain'_append]
    refine ⟨chapterLoop_chain data hsort 0, ?_, ?_⟩
    · rcases conclusionChapters_split data with hc | ⟨lastSeg, -, -, hc⟩
      · rw [hc]; exact List.chain'_nil
      · rw [hc]; exact List.chain'_singleton _
    · intro x hx y hy
      have hxmem : x ∈ chapterLoop data 0 := by
        cases hgl : (chapterLoop data 0).getLast? with
        | none => rw [hgl] at hx; exact absurd hx (by simp)
        | some z =>
          rw [hgl] at hx
          simp only [Option.mem_some_iff] at hx
          rw [← hx]
          exact mem_of_getLast? hgl
      rcases conclusionChapters_split data with hc | ⟨lastSeg, hgl, -, hc⟩
      · rw [hc] at hy; exact absurd hy (by simp)
      · rw [hc] at hy
        simp only [List.head?_cons, Option.mem_some_iff] at hy
        obtain ⟨j, seg, -, hget, hmk⟩ := chapterLoop_mem hxmem
        rw [mkBucketChapter_seconds hmk, ← hy]
        exact hlast j seg lastSeg hget hgl
  · intro lastSeg hget htr
    unfold createTimestampsFromTranscript
    have hc : conclusionChapters data =
        [{ time := lastSeg.end_formatted.getD [], title := ("Conclusion").toList,
           seconds := endSec lastSeg }] := by
      rcases conclusionChapters_split data with hc0 | ⟨lastSeg2, hgl2, -, hc0⟩
      · simp [conclusionChapters, hget, htr] at hc0
      · rw [hgl2] at hget
        injection hget with hsame
        rw [hc0, hsame]
    rw [hc, List.getLast?_concat]
    rfl

/-- C2 counterexample: the generative strategy pushes chapters in line
order without sorting, so an answer whose lines are out of order yields a
chapter list whose seconds are not non-decreasing. -/
theorem c2_counterexample :
    (parseAIAnswer (("0:05:00 - B\n0:01:00 - A").toList)).map Chapter.seconds =
      [300, 60] ∧
    ¬ List.Chain' (fun a b : Nat => a ≤ b) [300, 60] := by
  constructor
  · decide
  · intro h
    rw [List.chain'_cons] at h
    exact absurd h.1 (by norm_num)

/- ## C5: title truncation bounds -/

theorem trunc30_length (t : List Char) : (trunc30 t).length ≤ 30 := by
  unfold trunc30
  split
  · next h =>
    rw [List.length_append, List.length_take]
    simp
  · next h => omega

theorem trunc40_length (t : List Char) : (trunc40 t).length ≤ 40 := by
  unfold trunc40
  split
  · next h =>
    rw [List.length_append, List.length_take]
    simp
  · next h => omega

theorem mkBucketChapter_title {seg : Segment} {ch : Chapter}
    (h : mkBucketChapter seg = some ch) : ch.title = trunc30 (bucketTitle seg) := by
  unfold mkBucketChapter at h
  split at h
  · split at h
    · simp only [Option.some.injEq] at h
      subst h
      rfl
    · exact absurd h (by simp)
  · exact absurd h (by simp)

theorem parseChapterLine_title {line : List Char} {ch : Chapter}
    (h : parseChapterLine line = some ch) :
    ∃ p, scanChap line = some p ∧
      ch = mkChapterFromParts p := by
  unfold parseChapterLine at h
  cases hs : scanChap line with
  | none => rw [hs] at h; exact absurd h (by simp)
  | some p =>
    rw [hs] at h
    simp only [Option.map_some', Option.some.injEq] at h
    exact ⟨p, rfl, h.symm⟩

/-- C5 (amended): every chapter of the structural strategy has a title of at
most 30 characters and every chapter of the generative strategy one of at
most 40 characters; each strategy truncates a raw title exceeding its bound
to the bound minus three characters followed by the ellipsis marker. -/
theorem c5_title_bounds :
    (∀ data : List Segment, ∀ ch ∈ createTimestampsFromTranscript data,
      ch.title.length ≤ 30) ∧
    (∀ ans : List Char, ∀ ch ∈ parseAIAnswer ans, ch.title.length ≤ 40) ∧
    (∀ raw : List Char, 30 < raw.length →
      trunc30 raw = raw.take 27 ++ ("...").toList) ∧
    (∀ raw : List Char, 40 < raw.length →
      trunc40 raw = raw.take 37 ++ ("...").toList) := by
  refine ⟨?_, ?_, ?_, ?_⟩
  · intro data ch hch
    unfold createTimestampsFromTranscript at hch
    rcases List.mem_append.1 hch with hm | hm
    · obtain ⟨j, seg, -, -, hmk⟩ := chapterLoop_mem hm
      rw [mkBucketChapter_title hmk]
      exact trunc30_length _
    · rcases conclusionChapters_split data with hc | ⟨lastSeg, -, -, hc⟩
      · rw [hc] at hm
        exact absurd hm (List.not_mem_nil _)
      · rw [hc] at hm
        simp only [List.mem_singleton] at hm
        subst hm
        exact (by decide : (("Conclusion").toList).length ≤ 30)
  · intro ans ch hch
    unfold parseAIAnswer at hch
    rcases List.mem_filterMap.1 hch with ⟨line, -, hline⟩
    obtain ⟨p, -, rfl⟩ := parseChapterLine_title hline
    exact trunc40_length _
  · intro raw h
    unfold trunc30
    rw [if_pos h]
  · intro raw h
    unfold trunc40
    rw [if_pos h]

/-- C5 counterexample: a generative answer line whose title has 50
characters yields a chapter whose title keeps 40 characters, exceeding the
claimed bound of (approximately) 30. -/
theorem c5_counterexample :
    ((parseAIAnswer
        (("0:00:00 - aaaaaaaaaaaaaaaaaaaaaaaaaaaaaaaaaaaaaaaaaaaaaaaaaa").toList)).map
      (fun ch => ch.title.length)) = [40] ∧ ¬ (40 ≤ 30) := by
  constructor
  · decide
  · omega

/- ## C6: characterization of the generative line parser -/

theorem dropWhile_append_all {p : Char → Bool} :
    ∀ (mid rest : List Char), (∀ c ∈ mid, p c = true) →
      List.dropWhile p (mid ++ rest) = List.dropWhile p rest := by
  intro mid
  induction mid with
  | nil => intro rest _; rfl
  | cons c cs ih =>
    intro rest h
    rw [List.cons_append, List.dropWhile_cons, if_pos (h c (by simp))]
    exact ih rest (fun x hx => h x (by simp [hx]))

theorem dropWhile_head_neg {p : Char → Bool} :
    ∀ {l d : _} {t : List Char}, List.dropWhile p l = d :: t → p d = false := by
  intro l
  induction l with
  | nil => intro d t h; simp at h
  | cons c cs ih =>
    intro d t h
    rw [List.dropWhile_cons] at h
    split at h
    · exact ih h
    · next hc =>
      injection h with h1 h2
      subst h1
      simpa using hc

theorem crlf_imp_space {c : Char} (h : crlf c = true) : isSpaceChar c = true := by
  simp only [crlf, Bool.or_eq_true, decide_eq_true_eq] at h
  rcases h with h | h <;> (subst h; decide)

theorem titleFrom_isSome_iff (cs2 : List Char) :
    (titleFrom cs2).isSome = true ↔ ∃ c ∈ cs2, crlf c = false := by
  unfold titleFrom
  cases hdw : List.dropWhile isSpaceChar cs2 with
  | cons d t =>
    simp only [List.isEmpty_cons, Bool.false_eq_true, if_false, Option.isSome_some,
      true_iff]
    refine ⟨d, ?_, ?_⟩
    · exact (List.dropWhile_sublist _).mem (by rw [hdw]; simp)
    · have hd : isSpaceChar d = false := dropWhile_head_neg hdw
      cases hcr : crlf d with
      | false => rfl
      | true => rw [crlf_imp_space hcr] at hd; exact absurd hd (by simp)
  | nil =>
    simp only [List.isEmpty_nil, if_true]
    have hall : ∀ c ∈ cs2, isSpaceChar c = true := by
      rw [← List.dropWhile_eq_nil_iff]
      exact hdw
    cases hrv : List.dropWhile crlf cs2.reverse with
    | nil =>
      simp only [Option.isSome_none, Bool.false_eq_true, false_iff]
      rintro ⟨c, hc, hcr⟩
      have : ∀ x ∈ cs2.reverse, crlf x = true := List.dropWhile_eq_nil_iff.1 hrv
      have := this c (by simp [hc])
      rw [this] at hcr
      exact absurd hcr (by simp)
    | cons d t =>
      simp only [Option.isSome_some, true_iff]
      refine ⟨d, ?_, dropWhile_head_neg hrv⟩
      have : d ∈ cs2.reverse := (List.dropWhile_sublist _).mem (by rw [hrv]; simp)
      simpa using this

theorem chapTail_sound {hN : Nat} {csx : List Char} {p : ChapParts}
    (h : chapTail hN csx = some p) :
    ∃ m1 m2 s1 s2 mid sep cs2,
      csx = ':' :: m1 :: m2 :: ':' :: s1 :: s2 :: (mid ++ sep :: cs2) ∧
      isDig m1 = true ∧ isDig m2 = true ∧ isDig s1 = true ∧ isDig s2 = true ∧
      (∀ c ∈ mid, isSpaceChar c = true) ∧ (sep = '-' ∨ sep = '–') ∧
      titleFrom cs2 = some p.rawTitle ∧
      p.hN = hN ∧ p.mN = dv m1 * 10 + dv m2 ∧ p.sN = dv s1 * 10 + dv s2 := by
  unfold chapTail at h
  split at h
  case h_2 => exact absurd h (by simp)
  case h_1 m1 m2 s1 s2 cs =>
    split at h
    case isFalse => exact absurd h (by simp)
    case isTrue hdig =>
      simp only [Bool.and_eq_true] at hdig
      cases hdw : List.dropWhile isSpaceChar cs with
      | nil =>
        rw [hdw] at h
        exact absurd h (by simp [chapSep])
      | cons sep cs2 =>
        rw [hdw] at h
        simp only [chapSep] at h
        split at h
        case isFalse => exact absurd h (by simp)
        case isTrue hsep =>
          cases htf : titleFrom cs2 with
          | none => rw [htf] at h; exact absurd h (by simp)
          | some title =>
            rw [htf] at h
            have h2 : some (ChapParts.mk hN (dv m1 * 10 + dv m2) (dv s1 * 10 + dv s2) title)
                = some p := h
            simp only [Option.some.injEq] at h2
            subst h2
            refine ⟨m1, m2, s1, s2, cs.takeWhile isSpaceChar, sep, cs2, ?_,
              hdig.1.1.1, hdig.1.1.2, hdig.1.2, hdig.2, ?_, ?_, htf, rfl, rfl, rfl⟩
            · have hsplit := List.takeWhile_append_dropWhile isSpaceChar cs
              rw [hdw] at hsplit
              rw [hsplit]
            · intro c hc
              exact List.mem_takeWhile_imp hc
            · simp only [Bool.or_eq_true, decide_eq_true_eq] at hsep
              exact hsep

theorem chapTail_isSome {hN : Nat} {m1 m2 s1 s2 sep : Char} {mid cs2 : List Char}
    (hm1 : isDig m1 = true) (hm2 : isDig m2 = true)
    (hs1 : isDig s1 = true) (hs2 : isDig s2 = true)
    (hmid : ∀ c ∈ mid, isSpaceChar c = true) (hsep : sep = '-' ∨ sep = '–')
    (htitle : ∃ c ∈ cs2, crlf c = false) :
    (chapTail hN (':' :: m1 :: m2 :: ':' :: s1 :: s2 :: (mid ++ sep :: cs2))).isSome = true := by
  have hspace : isSpaceChar sep = false := by
    rcases hsep with h | h <;> (subst h; decide)
  have h2 : List.dropWhile isSpaceChar (mid ++ sep :: cs2) = sep :: cs2 := by
    rw [dropWhile_append_all _ _ hmid, List.dropWhile_cons, if_neg (by simp [hspace])]
  have h3 : (titleFrom cs2).isSome = true := (titleFrom_isSome_iff cs2).2 htitle
  cases htf : titleFrom cs2 with
  | none => rw [htf] at h3; exact absurd h3 (by simp)
  | some title =>
    have hsep2 : (decide (sep = '-') || decide (sep = '–')) = true := by
      rcases hsep with h | h <;> simp [h]
    simp only [chapTail]
    simp only [hm1, hm2, hs1, hs2, Bool.and_self, if_true, h2]
    simp [chapSep, hsep2, htf]

theorem tryChap_sound {cs : List Char} {p : ChapParts} (h : tryChap cs = some p) :
    ∃ hds tail, cs = hds ++ tail ∧
      ((∃ a, hds = [a] ∧ isDig a = true ∧ p.hN = dv a) ∨
       (∃ a b, hds = [a, b] ∧ isDig a = true ∧ isDig b = true ∧
         p.hN = dv a * 10 + dv b)) ∧
      chapTail p.hN tail = some p := by
  cases cs with
  | nil => exact absurd h (by simp [tryChap])
  | cons d1 cs1 =>
    cases cs1 with
    | nil => exact absurd h (by simp [tryChap])
    | cons d2 cs2 =>
      simp only [tryChap] at h
      split at h
      case isFalse => exact absurd h (by simp)
      case isTrue hd1 =>
        by_cases hd2 : isDig d2 = true
        · rw [if_pos hd2] at h
          cases hct : chapTail (dv d1 * 10 + dv d2) cs2 with
          | some q =>
            rw [hct] at h
            have h2 : some q = some p := h
            simp only [Option.some.injEq] at h2
            subst h2
            have hfields := chapTail_sound hct
            obtain ⟨m1x, m2x, s1x, s2x, midx, sepx, cs2x, heqx, hx1, hx2, hx3, hx4,
              hx5, hx6, hx7, hhn, hx8, hx9⟩ := hfields
            refine ⟨[d1, d2], cs2, rfl, Or.inr ⟨d1, d2, rfl, hd1, hd2, hhn⟩, ?_⟩
            rw [hhn]
            exact hct
          | none =>
            rw [hct] at h
            have h2 : chapTail (dv d1) (d2 :: cs2) = some p := h
            have hfields := chapTail_sound h2
            obtain ⟨m1x, m2x, s1x, s2x, midx, sepx, cs2x, heq, hx1, hx2, hx3, hx4,
              hx5, hx6, hx7, hx8, hx9, hx10⟩ := hfields
            exfalso
            have hd2c : d2 = ':' := by
              have hh := congrArg (fun l : List Char => l.head?) heq
              simpa using hh
            rw [hd2c] at hd2
            exact absurd hd2 (by decide)
        · rw [if_neg hd2] at h
          have hfields := chapTail_sound h
          obtain ⟨m1x, m2x, s1x, s2x, midx, sepx, cs2x, heqx, hx1, hx2, hx3, hx4,
            hx5, hx6, hx7, hhn, hx8, hx9⟩ := hfields
          refine ⟨[d1], d2 :: cs2, rfl, Or.inl ⟨d1, rfl, hd1, hhn⟩, ?_⟩
          rw [hhn]
          exact h

/-- The claim-side reading of one chapter line: the line is, from its first
character on, `H:MM:SS`, optional spaces, a hyphen or en-dash separator,
and a title area containing at least one printable character. -/
def HeadChapterForm (cs : List Char) : Prop :=
  ∃ hds m1 m2 s1 s2 mid sep cs2,
    cs = hds ++ ':' :: m1 :: m2 :: ':' :: s1 :: s2 :: (mid ++ sep :: cs2) ∧
    (hds.length = 1 ∨ hds.length = 2) ∧ (∀ c ∈ hds, isDig c = true) ∧
    isDig m1 = true ∧ isDig m2 = true ∧ isDig s1 = true ∧ isDig s2 = true ∧
    (∀ c ∈ mid, isSpaceChar c = true) ∧ (sep = '-' ∨ sep = '–') ∧
    (∃ c ∈ cs2, crlf c = false)

theorem tryChap_isSome_of_form {cs : List Char} (h : HeadChapterForm cs) :
    (tryChap cs).isSome = true := by
  obtain ⟨hds, m1, m2, s1, s2, mid, sep, cs2, heq, hlen, hdigs,
    hm1, hm2, hs1, hs2, hmid, hsep, htitle⟩ := h
  have hcolon : isDig ':' = false := by decide
  rcases hlen with h1 | h1
  · obtain ⟨a, rfl⟩ := List.length_eq_one.1 h1
    have ha : isDig a = true := hdigs a (by simp)
    subst heq
    rw [List.singleton_append]
    have hts := @chapTail_isSome (dv a) m1 m2 s1 s2 sep mid cs2 hm1 hm2 hs1 hs2 hmid hsep htitle
    simp only [tryChap]
    simp [ha, hcolon, hts]
  · obtain ⟨a, b, rfl⟩ := List.length_eq_two.1 h1
    have ha : isDig a = true := hdigs a (by simp)
    have hb : isDig b = true := hdigs b (by simp)
    subst heq
    have hts := @chapTail_isSome (dv a * 10 + dv b) m1 m2 s1 s2 sep mid cs2 hm1 hm2 hs1 hs2 hmid hsep htitle
    cases hct : chapTail (dv a * 10 + dv b)
        (':' :: m1 :: m2 :: ':' :: s1 :: s2 :: (mid ++ sep :: cs2)) with
    | none => rw [hct] at hts; exact absurd hts (by simp)
    | some q =>
      rw [List.cons_append, List.cons_append]
      simp only [tryChap]
      simp [ha, hb, hct]

theorem scanChap_sound {line : List Char} {p : ChapParts} (h : scanChap line = some p) :
    ∃ pre rest, line = pre ++ rest ∧ tryChap rest = some p := by
  induction line with
  | nil => exact absurd h (by simp [scanChap])
  | cons c cs ih =>
    unfold scanChap at h
    cases ht : tryChap (c :: cs) with
    | some q =>
      rw [ht] at h
      simp only [Option.some.injEq] at h
      subst h
      exact ⟨[], c :: cs, rfl, ht⟩
    | none =>
      rw [ht] at h
      obtain ⟨pre, rest, heq, htc⟩ := ih h
      exact ⟨c :: pre, rest, by simp [heq], htc⟩

theorem scanChap_isSome_of_suffix :
    ∀ (pre rest : List Char), (tryChap rest).isSome = true →
      (scanChap (pre ++ rest)).isSome = true := by
  intro pre
  induction pre with
  | nil =>
    intro rest h
    cases rest with
    | nil => exact absurd h (by simp [tryChap])
    | cons c cs =>
      rw [List.nil_append]
      unfold scanChap
      cases ht : tryChap (c :: cs) with
      | some q => simp
      | none => rw [ht] at h; exact absurd h (by simp)
  | cons c pre' ih =>
    intro rest h
    rw [List.cons_append]
    unfold scanChap
    cases ht : tryChap (c :: (pre' ++ rest)) with
    | some q => simp
    | none => exact ih rest h

theorem hasSub_append_left {pat A B : List Char} (h : hasSub pat A = true) :
    hasSub pat (A ++ B) = true := by
  induction A with
  | nil =>
    rw [List.nil_append]
    have hpat : pat = [] := by
      cases pat with
      | nil => rfl
      | cons x xs => simp [hasSub, litAt] at h
    subst hpat
    cases B with
    | nil => simp [hasSub, litAt]
    | cons b bs => simp [hasSub, litAt]
  | cons a A2 ih =>
    rw [List.cons_append, hasSub]
    rw [hasSub] at h
    rcases Bool.or_eq_true_iff.1 h with h1 | h1
    · obtain ⟨t, ht⟩ := litAt_iff_append.1 h1
      have hlit : litAt pat (a :: (A2 ++ B)) = true := by
        rw [show a :: (A2 ++ B) = (a :: A2) ++ B from rfl, ht, List.append_assoc]
        exact litAt_append_self _ _
      rw [hlit]
      simp
    · rw [ih h1]
      simp

theorem hasSub_pair_split {p1 p2 : Char} {A B : List Char}
    (h : hasSub (p1 :: p2 :: []) (A ++ B) = true) :
    hasSub (p1 :: p2 :: []) A = true ∨ hasSub (p1 :: p2 :: []) B = true ∨
      (A.getLast? = some p1 ∧ B.head? = some p2) := by
  induction A with
  | nil => exact Or.inr (Or.inl (by simpa using h))
  | cons a A2 ih =>
    rw [List.cons_append, hasSub] at h
    rcases Bool.or_eq_true_iff.1 h with h1 | h1
    · simp only [litAt, Bool.and_eq_true, decide_eq_true_eq] at h1
      obtain ⟨hp1, h2⟩ := h1
      cases A2 with
      | nil =>
        cases B with
        | nil => simp [litAt] at h2
        | cons b B2 =>
          simp only [List.nil_append, litAt, Bool.and_eq_true, decide_eq_true_eq] at h2
          exact Or.inr (Or.inr ⟨by simp [hp1], by simp [h2.1]⟩)
      | cons a2 A3 =>
        simp only [List.cons_append, litAt, Bool.and_eq_true, decide_eq_true_eq] at h2
        left
        rw [hasSub]
        have hlit : litAt (p1 :: p2 :: []) (a :: a2 :: A3) = true := by
          simp [litAt, hp1, h2.1]
        rw [hlit]
        simp
    · rcases ih h1 with h2 | h2 | h2
      · left
        rw [hasSub, h2]
        simp
      · exact Or.inr (Or.inl h2)
      · refine Or.inr (Or.inr ⟨?_, h2.2⟩)
        cases A2 with
        | nil => simp at h2
        | cons x xs =>
          rw [List.getLast?_cons_cons]
          exact h2.1

theorem removeStarStar_nil : removeStarStar [] = [] := rfl

theorem removeStarStar_star_star (rest : List Char) :
    removeStarStar ('*' :: '*' :: rest) = removeStarStar rest := by
  simp only [removeStarStar]
  simp

theorem removeStarStar_star_other {c2 : Char} (h : c2 ≠ '*') (rest : List Char) :
    removeStarStar ('*' :: c2 :: rest) = '*' :: removeStarStar (c2 :: rest) := by
  simp only [removeStarStar]
  simp [h]

theorem removeStarStar_singleton (c : Char) : removeStarStar [c] = [c] := rfl

theorem removeStarStar_other {c : Char} (h : c ≠ '*') :
    ∀ rest : List Char, removeStarStar (c :: rest) = c :: removeStarStar rest := by
  intro rest
  cases rest with
  | nil => rfl
  | cons c2 rest2 =>
    simp only [removeStarStar]
    rw [if_neg h]

theorem removeStarStar_no_pair (s : List Char) :
    hasSub (('*') :: ('*') :: []) (removeStarStar s) = false := by
  rcases s with - | ⟨c, - | ⟨c2, rest2⟩⟩
  · rw [removeStarStar_nil]
    decide
  · rw [removeStarStar_singleton]
    simp [hasSub, litAt]
  · by_cases hc : c = '*'
    · subst hc
      by_cases hc2 : c2 = '*'
      · subst hc2
        rw [removeStarStar_star_star]
        exact removeStarStar_no_pair rest2
      · rw [removeStarStar_star_other hc2]
        have hhead : removeStarStar (c2 :: rest2) = c2 :: removeStarStar rest2 :=
          removeStarStar_other hc2 rest2
        have hrec := removeStarStar_no_pair (c2 :: rest2)
        rw [hasSub, hrec, hhead]
        simp only [Bool.or_false, litAt, Bool.and_eq_true, decide_eq_true_eq]
        simp [Ne.symm hc2]
    · rw [removeStarStar_other hc]
      have hrec := removeStarStar_no_pair (c2 :: rest2)
      rw [hasSub, hrec]
      simp only [Bool.or_false, litAt, Bool.and_eq_true, decide_eq_true_eq]
      simp [Ne.symm hc]
termination_by s.length
decreasing_by all_goals (simp only [List.length_cons]; omega)

theorem no_pair_trunc40 {t : List Char}
    (h : hasSub (('*') :: ('*') :: []) t = false) :
    hasSub (('*') :: ('*') :: []) (trunc40 t) = false := by
  unfold trunc40
  split
  · cases hs : hasSub (('*') :: ('*') :: []) (t.take 37 ++ ("...").toList) with
    | false => rfl
    | true =>
      exfalso
      rcases hasSub_pair_split hs with h1 | h1 | h1
      · have : hasSub (('*') :: ('*') :: []) (t.take 37 ++ t.drop 37) = true :=
          hasSub_append_left h1
        rw [List.take_append_drop] at this
        rw [this] at h
        exact absurd h (by simp)
      · exact absurd h1 (by decide)
      · have := h1.2
        simp at this
  · exact h

/-- C6 (amended): the generative parser accepts exactly the lines that
contain, at some position, a match of `H:MM:SS` (one or two digit hour),
optional whitespace, a hyphen or en-dash, and a title area with at least
one printable character; every produced chapter has seconds
H*3600 + MM*60 + SS from the first such match and a title from which the
occurrences of `**` have been removed (after trimming), truncated to at
most 40 characters; the produced title never contains `**`. -/
theorem c6_generative_line_accept :
    (∀ line : List Char,
      ((parseChapterLine line).isSome = true ↔
        ∃ pre rest, line = pre ++ rest ∧ HeadChapterForm rest)) ∧
    (∀ (line : List Char) (ch : Chapter), parseChapterLine line = some ch →
      ∃ pre hds m1 m2 s1 s2 mid sep cs2 title,
        line = pre ++ hds ++ ':' :: m1 :: m2 :: ':' :: s1 :: s2 :: (mid ++ sep :: cs2) ∧
        (hds.length = 1 ∨ hds.length = 2) ∧ (∀ c ∈ hds, isDig c = true) ∧
        isDig m1 = true ∧ isDig m2 = true ∧ isDig s1 = true ∧ isDig s2 = true ∧
        (∀ c ∈ mid, isSpaceChar c = true) ∧ (sep = '-' ∨ sep = '–') ∧
        titleFrom cs2 = some title ∧
        ch.seconds = charsToNat hds * 3600 + charsToNat [m1, m2] * 60 +
          charsToNat [s1, s2] ∧
        ch.title = trunc40 (removeStarStar (trimChars title)) ∧
        hasSub (('*') :: ('*') :: []) ch.title = false) := by
  constructor
  · intro line
    constructor
    · intro h
      unfold parseChapterLine at h
      rw [Option.isSome_map'] at h
      cases hs : scanChap line with
      | none => rw [hs] at h; exact absurd h (by simp)
      | some p =>
        obtain ⟨pre, rest, heq, htc⟩ := scanChap_sound hs
        obtain ⟨hds, tail, heq2, hhds, hct⟩ := tryChap_sound htc
        obtain ⟨m1, m2, s1, s2, mid, sep, cs2, heq3, hm1, hm2, hs1, hs2, hmid, hsep,
          htf, -, -, -⟩ := chapTail_sound hct
        refine ⟨pre, rest, heq, hds, m1, m2, s1, s2, mid, sep, cs2, ?_, ?_, ?_,
          hm1, hm2, hs1, hs2, hmid, hsep, ?_⟩
        · rw [heq2, heq3]
        · rcases hhds with ⟨a, rfl, -, -⟩ | ⟨a, b, rfl, -, -, -⟩
          · exact Or.inl rfl
          · exact Or.inr rfl
        · rcases hhds with ⟨a, rfl, ha, -⟩ | ⟨a, b, rfl, ha, hb, -⟩
          · intro c hc; simp at hc; subst hc; exact ha
          · intro c hc
            simp only [List.mem_cons, List.mem_singleton] at hc
            rcases hc with rfl | rfl | habs
            · exact ha
            · exact hb
            · exact absurd habs (by simp)
        · rw [← titleFrom_isSome_iff, htf]
          rfl
    · rintro ⟨pre, rest, heq, hform⟩
      unfold parseChapterLine
      rw [Option.isSome_map']
      rw [heq]
      exact scanChap_isSome_of_suffix pre rest (tryChap_isSome_of_form hform)
  · intro line ch h
    obtain ⟨p, hscan, rfl⟩ := parseChapterLine_title h
    obtain ⟨pre, rest, heq, htc⟩ := scanChap_sound hscan
    obtain ⟨hds, tail, heq2, hhds, hct⟩ := tryChap_sound htc
    obtain ⟨m1, m2, s1, s2, mid, sep, cs2, heq3, hm1, hm2, hs1, hs2, hmid, hsep,
      htf, hhn, hmn, hsn⟩ := chapTail_sound hct
    have hnopair : hasSub (('*') :: ('*') :: [])
        (trunc40 (removeStarStar (trimChars p.rawTitle))) = false :=
      no_pair_trunc40 (removeStarStar_no_pair _)
    refine ⟨pre, hds, m1, m2, s1, s2, mid, sep, cs2, p.rawTitle, ?_, ?_, ?_,
      hm1, hm2, hs1, hs2, hmid, hsep, htf, ?_, rfl, hnopair⟩
    · rw [heq, heq2, heq3, List.append_assoc]
    · rcases hhds with ⟨a, rfl, -, -⟩ | ⟨a, b, rfl, -, -, -⟩
      · exact Or.inl rfl
      · exact Or.inr rfl
    · rcases hhds with ⟨a, rfl, ha, -⟩ | ⟨a, b, rfl, ha, hb, -⟩
      · intro c hc; simp at hc; subst hc; exact ha
      · intro c hc
        simp only [List.mem_cons, List.mem_singleton] at hc
        rcases hc with rfl | rfl | habs
        · exact ha
        · exact hb
        · exact absurd habs (by simp)
    · show (mkChapterFromParts p).seconds = _
      unfold mkChapterFromParts
      rcases hhds with ⟨a, rfl, ha, hv⟩ | ⟨a, b, rfl, ha, hb, hv⟩ <;>
        simp [hv, hhn, hmn, hsn, charsToNat, dv]

/-- C6 counterexample: a line with leading text before the time pattern is
not of the form `H:MM:SS - Title`, yet the unanchored parser accepts it and
contributes a chapter. -/
theorem c6_counterexample :
    (Option.map Chapter.seconds
        (parseChapterLine (("see 1:02:03 - Intro").toList)) = some 3723) ∧
    ¬ HeadChapterForm (("see 1:02:03 - Intro").toList) := by
  constructor
  · decide
  · rintro ⟨hds, m1, m2, s1, s2, mid, sep, cs2, heq, hlen, hdigs, -⟩
    have hchars : ("see 1:02:03 - Intro").toList =
        's' :: 'e' :: 'e' :: (" 1:02:03 - Intro").toList := rfl
    rcases hlen with h1 | h1
    · obtain ⟨a, rfl⟩ := List.length_eq_one.1 h1
      rw [hchars] at heq
      simp only [List.singleton_append, List.cons.injEq] at heq
      obtain ⟨rfl, heq2⟩ := heq
      have := hdigs 's' (by simp)
      exact absurd this (by decide)
    · obtain ⟨a, b, rfl⟩ := List.length_eq_two.1 h1
      rw [hchars] at heq
      simp only [List.cons_append, List.nil_append, List.cons.injEq] at heq
      obtain ⟨rfl, rfl, heq2⟩ := heq
      have := hdigs 's' (by simp)
      exact absurd this (by decide)

/- ## Application state model: loadVideo and generateAITimestamps -/

inductive MsgType where
  | system
  | user
  | ai
deriving DecidableEq

/-- A chat message; the wall-clock `time` field of the source is outside the
model (it never affects control flow or the other state fields). -/
structure Msg where
  type : MsgType
  content : List Char
deriving DecidableEq

/-- The React state of App.js touched by `loadVideo`. -/
structure AppState where
  videoUrl : List Char
  videoId : List Char
  videoTitle : List Char
  messages : List Msg
  timestamps : List Chapter
  error : List Char
deriving DecidableEq

/-- Result of an awaited `fetch`: a parsed JSON body or a thrown error. -/
inductive FetchOutcome (α : Type) where
  | ok (data : α)
  | netError
deriving DecidableEq

/-- Body of a `/process-youtube` response; an empty `video_title` models an
absent (falsy) field. -/
structure ProcessData where
  success : Bool
  error : List Char
  video_title : List Char
deriving DecidableEq

/-- Body of a `/smart-question` response. -/
structure SmartData where
  success : Bool
  answer : List Char
  video_title : List Char
deriving DecidableEq

/-- Calls observable during `loadVideo`: the two backend fetches and the two
chapter-strategy entry points. -/
inductive AppCall where
  | fetchProcess
  | fetchSmart
  | runStructural
  | runGenerative
deriving DecidableEq

def invalidUrlMsg : List Char := ("Please enter a valid YouTube URL").toList

def noTranscriptMsg : List Char := ("Could not extract transcript from this video").toList

def connectErrMsg : List Char := ("Failed to connect to server").toList

def sysMsgContent (title : List Char) : List Char :=
  ("Video loaded! Ask questions about \"").toList ++ title ++ ("\".").toList

/-- `generateAITimestamps` of App.js as a state transformer: the smart
question fetch, the optional title update, and the timestamp parse. -/
def generateAITimestamps (st : AppState) :
    FetchOutcome SmartData → AppState × List AppCall
  | FetchOutcome.netError => (st, [AppCall.fetchSmart])
  | FetchOutcome.ok data =>
    if data.success then
      ({ (if !data.video_title.isEmpty && st.videoTitle.isEmpty then
            { st with videoTitle := data.video_title }
          else st) with
          timestamps := parseAIAnswer data.answer }, [AppCall.fetchSmart])
    else (st, [AppCall.fetchSmart])

/-- The state committed by `loadVideo` just before it launches the
generative chapter request: title defaulted, system message posted,
timestamps and error reset. -/
def successState (st : AppState) (id : List Char) (data : ProcessData) : AppState :=
  { st with
    videoId := id,
    videoTitle :=
      (if data.video_title.isEmpty then ("Unknown Video").toList else data.video_title),
    messages :=
      [{ type := MsgType.system,
         content := sysMsgContent
           (if data.video_title.isEmpty then ("this video").toList
            else data.video_title) }],
    timestamps := [], error := [] }

/-- The part of `loadVideo` after the URL resolved to an id. -/
def loadVideoResolved (st : AppState) (id : List Char) :
    FetchOutcome ProcessData → FetchOutcome SmartData → AppState × List AppCall
  | FetchOutcome.netError, _ =>
    ({ st with videoId := id, messages := [], timestamps := [], error := connectErrMsg },
     [AppCall.fetchProcess])
  | FetchOutcome.ok data, aiResp =>
    if !data.success then
      ({ st with
          videoId := id, messages := [], timestamps := [], error := noTranscriptMsg },
       [AppCall.fetchProcess])
    else
      ((generateAITimestamps (successState st id data) aiResp).1,
       AppCall.fetchProcess :: AppCall.runGenerative ::
         (generateAITimestamps (successState st id data) aiResp).2)

/-- `loadVideo` of App.js as a state transformer over the modelled fetch
outcomes. On success it invokes only the generative strategy
(`generateAITimestamps`); `createTimestampsFromTranscript` is called on no
path. -/
def loadVideo (st : AppState) (processResp : FetchOutcome ProcessData)
    (aiResp : FetchOutcome SmartData) : AppState × List AppCall :=
  match getVideoId st.videoUrl with
  | none => ({ st with error := invalidUrlMsg }, [])
  | some id => loadVideoResolved st id processResp aiResp

theorem loadVideo_none {st : AppState} {pr : FetchOutcome ProcessData}
    {ar : FetchOutcome SmartData} (hg : getVideoId st.videoUrl = none) :
    loadVideo st pr ar = ({ st with error := invalidUrlMsg }, []) := by
  unfold loadVideo
  rw [hg]

theorem loadVideo_some {st : AppState} {pr : FetchOutcome ProcessData}
    {ar : FetchOutcome SmartData} {id : List Char}
    (hg : getVideoId st.videoUrl = some id) :
    loadVideo st pr ar = loadVideoResolved st id pr ar := by
  unfold loadVideo
  rw [hg]

theorem generateAITimestamps_calls (st : AppState) (resp : FetchOutcome SmartData) :
    (generateAITimestamps st resp).2 = [AppCall.fetchSmart] := by
  cases resp with
  | netError => rfl
  | ok data =>
    simp only [generateAITimestamps]
    split <;> rfl

/-- C1 (amended): chapter generation after a video load never runs the
structural strategy — `createTimestampsFromTranscript` is invoked on no
path of `loadVideo` — and every successful load (resolved id, successful
process response) runs the generative strategy. -/
theorem c1_generative_only (st : AppState) (pr : FetchOutcome ProcessData)
    (ar : FetchOutcome SmartData) :
    AppCall.runStructural ∉ (loadVideo st pr ar).2 ∧
    (∀ id d, getVideoId st.videoUrl = some id → pr = FetchOutcome.ok d →
      d.success = true → AppCall.runGenerative ∈ (loadVideo st pr ar).2) := by
  cases hg : getVideoId st.videoUrl with
  | none =>
    rw [loadVideo_none hg]
    refine ⟨by simp, ?_⟩
    intro id d hid
    exact absurd hid (by simp)
  | some id =>
    rw [loadVideo_some hg]
    cases pr with
    | netError =>
      refine ⟨by simp [loadVideoResolved], ?_⟩
      intro id2 d hid hd
      exact absurd hd (by simp)
    | ok data =>
      by_cases hs : data.success = true
      · simp only [loadVideoResolved, hs, Bool.not_true, Bool.false_eq_true, if_false]
        rw [generateAITimestamps_calls]
        refine ⟨by simp, ?_⟩
        intro id2 d hid hd hsd
        simp
      · have hs2 : data.success = false := by
          revert hs
          cases data.success <;> simp
        simp only [loadVideoResolved, hs2, Bool.not_false, if_true]
        refine ⟨by simp, ?_⟩
        intro id2 d hid hd hsd
        injection hd with hd2
        subst hd2
        rw [hs2] at hsd
        exact absurd hsd (by simp)

/-- C1 counterexample: a concrete successful load whose call trace contains
the generative request and never the structural builder, refuting that the
structural builder runs before any generative request. -/
theorem c1_counterexample :
    (loadVideo
        { videoUrl := ("https://youtu.be/abc").toList, videoId := []
          videoTitle := [], messages := [], timestamps := [], error := [] }
        (FetchOutcome.ok { success := true, error := [], video_title := ("T").toList })
        (FetchOutcome.ok { success := true, answer := ("0:00:00 - Intro").toList
                           video_title := ("T").toList })).2 =
      [AppCall.fetchProcess, AppCall.runGenerative, AppCall.fetchSmart] ∧
    AppCall.runStructural ∉
      [AppCall.fetchProcess, AppCall.runGenerative, AppCall.fetchSmart] := by
  constructor
  · decide
  · decide

/-- C10: an input URL that does not normalize to a video id makes
`loadVideo` set only the error message: no fetch happens and the messages,
timestamps, video id and title state are untouched. -/
theorem c10_invalid_url (st : AppState) (pr : FetchOutcome ProcessData)
    (ar : FetchOutcome SmartData) (h : getVideoId st.videoUrl = none) :
    loadVideo st pr ar = ({ st with error := invalidUrlMsg }, []) ∧
    (loadVideo st pr ar).1.messages = st.messages ∧
    (loadVideo st pr ar).1.timestamps = st.timestamps ∧
    (loadVideo st pr ar).1.videoId = st.videoId ∧
    (loadVideo st pr ar).1.videoTitle = st.videoTitle ∧
    (loadVideo st pr ar).2 = [] := by
  rw [loadVideo_none h]
  exact ⟨rfl, rfl, rfl, rfl, rfl, rfl⟩

/- ## C8: single-flight extraction (modelled from the spec) -/

/-- Modelled from the spec: the backend VideoCache (§4.2) is not under
src/, so its single-flight discipline is modelled from the specification's
words: a per-identity entry is vacant, in flight with a list of waiting
callers, or done with the extraction result `r`. -/
inductive CacheEntryState (R : Type) where
  | vacant
  | inflight (waiters : List Nat)
  | done (r : R)
deriving DecidableEq

/-- Modelled from the spec: events at one identity — a caller's
`process_video` arrival, or completion of the extraction chain. -/
inductive CacheEvent (R : Type) where
  | arrive (caller : Nat)
  | resolve (r : R)
deriving DecidableEq

/-- Modelled from the spec: observable effects — launching the extraction
chain, and delivering a result to a caller. -/
inductive CacheEffect (R : Type) where
  | startExtraction
  | deliver (caller : Nat) (r : R)
deriving DecidableEq

/-- Modelled from the spec: one step of the per-identity cache. The first
caller on a vacant entry launches the extraction and registers as a waiter;
later callers only join the waiter list; completion delivers the same
result to every waiter; callers arriving after completion are served from
the entry. -/
def cacheStep {R : Type} :
    CacheEntryState R → CacheEvent R → CacheEntryState R × List (CacheEffect R)
  | CacheEntryState.vacant, CacheEvent.arrive c =>
    (CacheEntryState.inflight [c], [CacheEffect.startExtraction])
  | CacheEntryState.inflight ws, CacheEvent.arrive c =>
    (CacheEntryState.inflight (ws ++ [c]), [])
  | CacheEntryState.done r, CacheEvent.arrive c =>
    (CacheEntryState.done r, [CacheEffect.deliver c r])
  | CacheEntryState.inflight ws, CacheEvent.resolve r =>
    (CacheEntryState.done r, ws.map (fun c => CacheEffect.deliver c r))
  | CacheEntryState.vacant, CacheEvent.resolve _ => (CacheEntryState.vacant, [])
  | CacheEntryState.done r0, CacheEvent.resolve _ => (CacheEntryState.done r0, [])

/-- Run of the per-identity cache over an event interleaving. -/
def cacheRun {R : Type} :
    CacheEntryState R → List (CacheEvent R) → CacheEntryState R × List (CacheEffect R)
  | s, [] => (s, [])
  | s, e :: es =>
    ((cacheRun (cacheStep s e).1 es).1,
     (cacheStep s e).2 ++ (cacheRun (cacheStep s e).1 es).2)

def isStart {R : Type} : CacheEffect R → Bool
  | CacheEffect.startExtraction => true
  | CacheEffect.deliver _ _ => false

/-- The callers of the arrival events of a trace, in order. -/
def callersOf {R : Type} (es : List (CacheEvent R)) : List Nat :=
  es.filterMap (fun e =>
    match e with
    | CacheEvent.arrive c => some c
    | CacheEvent.resolve _ => none)

theorem cacheRun_append {R : Type} (a b : List (CacheEvent R)) :
    ∀ s : CacheEntryState R,
      cacheRun s (a ++ b) =
        ((cacheRun (cacheRun s a).1 b).1,
         (cacheRun s a).2 ++ (cacheRun (cacheRun s a).1 b).2) := by
  induction a with
  | nil => intro s; simp [cacheRun]
  | cons e es ih =>
    intro s
    rw [List.cons_append]
    show cacheRun s (e :: (es ++ b)) = _
    rw [cacheRun]
    rw [ih (cacheStep s e).1]
    rw [cacheRun]
    simp [List.append_assoc]

theorem cacheRun_inflight_arrives {R : Type} (es : List (CacheEvent R))
    (h : ∀ e ∈ es, ∃ c, e = CacheEvent.arrive c) :
    ∀ ws, cacheRun (CacheEntryState.inflight ws) es =
      (CacheEntryState.inflight (ws ++ callersOf es), []) := by
  induction es with
  | nil => intro ws; simp [cacheRun, callersOf]
  | cons e es ih =>
    intro ws
    obtain ⟨c, rfl⟩ := h e (by simp)
    rw [cacheRun]
    show ((cacheRun (CacheEntryState.inflight (ws ++ [c])) es).1,
      [] ++ (cacheRun (CacheEntryState.inflight (ws ++ [c])) es).2) = _
    rw [ih (fun e he => h e (by simp [he])) (ws ++ [c])]
    simp only [List.nil_append, callersOf, List.filterMap_cons]
    simp [List.append_assoc, callersOf]

theorem cacheRun_done_arrives {R : Type} (es : List (CacheEvent R))
    (h : ∀ e ∈ es, ∃ c, e = CacheEvent.arrive c) (r : R) :
    cacheRun (CacheEntryState.done r) es =
      (CacheEntryState.done r, (callersOf es).map (fun c => CacheEffect.deliver c r)) := by
  induction es with
  | nil => simp [cacheRun, callersOf]
  | cons e es ih =>
    obtain ⟨c, rfl⟩ := h e (by simp)
    rw [cacheRun]
    show ((cacheRun (CacheEntryState.done r) es).1,
      [CacheEffect.deliver c r] ++ (cacheRun (CacheEntryState.done r) es).2) = _
    rw [ih (fun e he => h e (by simp [he]))]
    simp [callersOf]

theorem mem_callersOf {R : Type} {es : List (CacheEvent R)} {c : Nat} :
    CacheEvent.arrive c ∈ es ↔ c ∈ callersOf es := by
  unfold callersOf
  rw [List.mem_filterMap]
  constructor
  · intro h
    exact ⟨CacheEvent.arrive c, h, rfl⟩
  · rintro ⟨e, he, hm⟩
    cases e with
    | arrive c2 =>
      simp only [Option.some.injEq] at hm
      subst hm
      exact he
    | resolve r => simp at hm

/-- C8 (spec-modelled): in any interleaving where the callers of an unseen
identity arrive, the single extraction resolves with result `r` after at
least one arrival, and further callers arrive afterwards, the extraction
chain is launched exactly once, every caller of the trace is delivered a
result, and every delivered result is `r`. -/
theorem c8_single_flight {R : Type} (pre post : List (CacheEvent R)) (r : R)
    (hpre : ∀ e ∈ pre, ∃ c, e = CacheEvent.arrive c)
    (hpost : ∀ e ∈ post, ∃ c, e = CacheEvent.arrive c)
    (hne : pre ≠ []) :
    ((cacheRun CacheEntryState.vacant (pre ++ CacheEvent.resolve r :: post)).2.countP
        isStart = 1) ∧
    (∀ c, CacheEvent.arrive c ∈ pre ++ CacheEvent.resolve r :: post →
      CacheEffect.deliver c r ∈
        (cacheRun CacheEntryState.vacant (pre ++ CacheEvent.resolve r :: post)).2) ∧
    (∀ c r2, CacheEffect.deliver c r2 ∈
        (cacheRun CacheEntryState.vacant (pre ++ CacheEvent.resolve r :: post)).2 →
      r2 = r) := by
  obtain ⟨e0, pre', rfl⟩ : ∃ e0 pre', pre = e0 :: pre' := by
    cases pre with
    | nil => exact absurd rfl hne
    | cons e0 pre' => exact ⟨e0, pre', rfl⟩
  obtain ⟨c0, rfl⟩ := hpre e0 (by simp)
  have hpre' : ∀ e ∈ pre', ∃ c, e = CacheEvent.arrive c :=
    fun e he => hpre e (by simp [he])
  have hrunpre : cacheRun (CacheEntryState.vacant : CacheEntryState R)
      (CacheEvent.arrive c0 :: pre') =
      (CacheEntryState.inflight (c0 :: callersOf pre'), [CacheEffect.startExtraction]) := by
    rw [cacheRun]
    show ((cacheRun (CacheEntryState.inflight [c0]) pre').1,
      [CacheEffect.startExtraction] ++ (cacheRun (CacheEntryState.inflight [c0]) pre').2) = _
    rw [cacheRun_inflight_arrives pre' hpre' [c0]]
    simp
  have hfull : (cacheRun CacheEntryState.vacant
      ((CacheEvent.arrive c0 :: pre') ++ CacheEvent.resolve r :: post)).2 =
      CacheEffect.startExtraction ::
        ((c0 :: callersOf pre').map (fun c => CacheEffect.deliver c r) ++
          (callersOf post).map (fun c => CacheEffect.deliver c r)) := by
    rw [cacheRun_append, hrunpre]
    rw [show (cacheRun (CacheEntryState.inflight (c0 :: callersOf pre'))
        (CacheEvent.resolve r :: post)) =
      ((cacheRun (CacheEntryState.done r) post).1,
        ((c0 :: callersOf pre').map (fun c => CacheEffect.deliver c r)) ++
          (cacheRun (CacheEntryState.done r) post).2) from by rw [cacheRun]; rfl]
    rw [cacheRun_done_arrives post hpost r]
    simp
  refine ⟨?_, ?_, ?_⟩
  · rw [hfull]
    have hz1 : List.countP isStart
        (List.map (fun c => CacheEffect.deliver c r) (c0 :: callersOf pre')) = 0 := by
      rw [List.countP_eq_zero]
      intro eff heff
      obtain ⟨c, -, rfl⟩ := List.mem_map.1 heff
      simp [isStart]
    have hz2 : List.countP isStart
        (List.map (fun c => CacheEffect.deliver c r) (callersOf post)) = 0 := by
      rw [List.countP_eq_zero]
      intro eff heff
      obtain ⟨c, -, rfl⟩ := List.mem_map.1 heff
      simp [isStart]
    rw [List.countP_cons, List.countP_append, hz1, hz2]
    simp [isStart]
  · intro c hc
    rw [hfull]
    rcases List.mem_append.1 hc with hm | hm
    · have : c ∈ c0 :: callersOf pre' := by
        rcases List.mem_cons.1 hm with h1 | h1
        · injection h1 with h2; simp [h2]
        · exact List.mem_cons_of_mem _ (mem_callersOf.1 h1)
      refine List.mem_cons_of_mem _ (List.mem_append.2 (Or.inl ?_))
      exact List.mem_map.2 ⟨c, this, rfl⟩
    · rcases List.mem_cons.1 hm with h1 | h1
      · exact absurd h1 (by simp)
      · refine List.mem_cons_of_mem _ (List.mem_append.2 (Or.inr ?_))
        exact List.mem_map.2 ⟨c, mem_callersOf.1 h1, rfl⟩
  · intro c r2 hm
    rw [hfull] at hm
    rcases List.mem_cons.1 hm with h1 | h1
    · exact absurd h1 (by simp)
    · rcases List.mem_append.1 h1 with h2 | h2 <;>
        (obtain ⟨c2, -, heq⟩ := List.mem_map.1 h2; injection heq with he1 he2; exact he2.symm)


/- ## formatText: markdown and clickable-citation rendering -/

/-- A rendered fragment of an answer: inert text (eventually HTML) or a
clickable timestamp button that seeks the player to `seconds`. -/
inductive Piece where
  | text (s : List Char)
  | button (label : List Char) (seconds : Nat)
deriving DecidableEq

def boldOpen : List Char := ("<strong class=\"bold-text\">").toList

def boldClose : List Char := ("</strong>").toList

def emOpen : List Char := ("<em class=\"italic-text\">").toList

def emClose : List Char := ("</em>").toList

def phOpen : List Char := ("<span class=\"timestamp-placeholder\">").toList

def phClose : List Char := ("</span>").toList

/-- One-digit-hour completion of the citation pattern after `(` and the
hour digit: `:(\d{2}):(\d{2})\)`. -/
def tryCite1 (d1 : Char) : List Char → Option (List Char × List Char)
  | ':' :: m1 :: m2 :: ':' :: s1 :: s2 :: ')' :: cs =>
    if isDig m1 && isDig m2 && isDig s1 && isDig s2 then
      some ([d1, ':', m1, m2, ':', s1, s2], cs)
    else none
  | _ => none

/-- Two-digit-hour completion of the citation pattern. -/
def citeTail2 (d1 d2 : Char) : List Char → Option (List Char × List Char)
  | ':' :: m1 :: m2 :: ':' :: s1 :: s2 :: ')' :: cs =>
    if isDig m1 && isDig m2 && isDig s1 && isDig s2 then
      some ([d1, d2, ':', m1, m2, ':', s1, s2], cs)
    else none
  | _ => none

/-- Match attempt of `\((\d{1,2}):(\d{2}):(\d{2})\)` at one position, the
hour group greedy with backtracking. -/
def tryCite : List Char → Option (List Char × List Char)
  | c0 :: d1 :: d2 :: cs =>
    if c0 = '(' && isDig d1 then
      if isDig d2 then
        match citeTail2 d1 d2 cs with
        | some r => some r
        | none => tryCite1 d1 (d2 :: cs)
      else tryCite1 d1 (d2 :: cs)
    else none
  | _ => none

/-- Shape of a captured `H:MM:SS` label. -/
def labelShape (l : List Char) : Prop :=
  (∃ a m1 m2 s1 s2, l = [a, ':', m1, m2, ':', s1, s2] ∧
    isDig a = true ∧ isDig m1 = true ∧ isDig m2 = true ∧
    isDig s1 = true ∧ isDig s2 = true) ∨
  (∃ a b m1 m2 s1 s2, l = [a, b, ':', m1, m2, ':', s1, s2] ∧
    isDig a = true ∧ isDig b = true ∧ isDig m1 = true ∧ isDig m2 = true ∧
    isDig s1 = true ∧ isDig s2 = true)

theorem tryCite1_decomp {d1 : Char} {cs label rest : List Char}
    (h : tryCite1 d1 cs = some (label, rest)) :
    ∃ m1 m2 s1 s2, cs = ':' :: m1 :: m2 :: ':' :: s1 :: s2 :: ')' :: rest ∧
      label = [d1, ':', m1, m2, ':', s1, s2] ∧
      isDig m1 = true ∧ isDig m2 = true ∧ isDig s1 = true ∧ isDig s2 = true := by
  unfold tryCite1 at h
  split at h
  case h_2 => exact absurd h (by simp)
  case h_1 m1 m2 s1 s2 cs2 =>
    split at h
    case isFalse => exact absurd h (by simp)
    case isTrue hd =>
      simp only [Bool.and_eq_true] at hd
      simp only [Option.some.injEq, Prod.mk.injEq] at h
      exact ⟨m1, m2, s1, s2, by rw [h.2], by rw [← h.1], hd.1.1.1, hd.1.1.2, hd.1.2, hd.2⟩

theorem citeTail2_decomp {d1 d2 : Char} {cs label rest : List Char}
    (h : citeTail2 d1 d2 cs = some (label, rest)) :
    ∃ m1 m2 s1 s2, cs = ':' :: m1 :: m2 :: ':' :: s1 :: s2 :: ')' :: rest ∧
      label = [d1, d2, ':', m1, m2, ':', s1, s2] ∧
      isDig m1 = true ∧ isDig m2 = true ∧ isDig s1 = true ∧ isDig s2 = true := by
  unfold citeTail2 at h
  split at h
  case h_2 => exact absurd h (by simp)
  case h_1 m1 m2 s1 s2 cs2 =>
    split at h
    case isFalse => exact absurd h (by simp)
    case isTrue hd =>
      simp only [Bool.and_eq_true] at hd
      simp only [Option.some.injEq, Prod.mk.injEq] at h
      exact ⟨m1, m2, s1, s2, by rw [h.2], by rw [← h.1], hd.1.1.1, hd.1.1.2, hd.1.2, hd.2⟩

theorem tryCite_decomp {cs label rest : List Char}
    (h : tryCite cs = some (label, rest)) :
    cs = '(' :: label ++ ')' :: rest ∧ labelShape label := by
  cases cs with
  | nil => exact absurd h (by simp [tryCite])
  | cons c0 cs0 =>
    cases cs0 with
    | nil => exact absurd h (by simp [tryCite])
    | cons d1 cs1 =>
      cases cs1 with
      | nil => exact absurd h (by simp [tryCite])
      | cons d2 cs2 =>
        simp only [tryCite] at h
        split at h
        case isFalse => exact absurd h (by simp)
        case isTrue hd1 =>
          simp only [Bool.and_eq_true, decide_eq_true_eq] at hd1
          obtain ⟨hc0, hd1⟩ := hd1
          subst hc0
          by_cases hd2 : isDig d2 = true
          · rw [if_pos hd2] at h
            cases hct : citeTail2 d1 d2 cs2 with
            | some r =>
              rw [hct] at h
              have h2 : some r = some (label, rest) := h
              simp only [Option.some.injEq] at h2
              subst h2
              obtain ⟨m1, m2, s1, s2, hcs, hlbl, hm1, hm2, hs1, hs2⟩ :=
                citeTail2_decomp hct
              subst hlbl
              rw [hcs]
              exact ⟨rfl, Or.inr ⟨d1, d2, m1, m2, s1, s2, rfl, hd1, hd2, hm1, hm2, hs1, hs2⟩⟩
            | none =>
              rw [hct] at h
              have h2 : tryCite1 d1 (d2 :: cs2) = some (label, rest) := h
              obtain ⟨m1, m2, s1, s2, hcs, hlbl, hm1, hm2, hs1, hs2⟩ :=
                tryCite1_decomp h2
              exfalso
              have hcol : d2 = ':' := by
                have hh := congrArg (fun l : List Char => l.head?) hcs
                simpa using hh
              rw [hcol] at hd2
              exact absurd hd2 (by decide)
          · rw [if_neg hd2] at h
            obtain ⟨m1, m2, s1, s2, hcs, hlbl, hm1, hm2, hs1, hs2⟩ := tryCite1_decomp h
            subst hlbl
            rw [hcs]
            exact ⟨rfl, Or.inl ⟨d1, m1, m2, s1, s2, rfl, hd1, hm1, hm2, hs1, hs2⟩⟩

/-- One-digit-hour completion of the placeholder pattern in the split
regex, ending with the `</span>` literal. -/
def phTry1 (d1 : Char) : List Char → Option (List Char × List Char)
  | ':' :: m1 :: m2 :: ':' :: s1 :: s2 :: cs =>
    if isDig m1 && isDig m2 && isDig s1 && isDig s2 && litAt phClose cs then
      some ([d1, ':', m1, m2, ':', s1, s2], cs.drop 7)
    else none
  | _ => none

/-- Two-digit-hour completion of the placeholder pattern. -/
def phTry2 (d1 d2 : Char) : List Char → Option (List Char × List Char)
  | ':' :: m1 :: m2 :: ':' :: s1 :: s2 :: cs =>
    if isDig m1 && isDig m2 && isDig s1 && isDig s2 && litAt phClose cs then
      some ([d1, d2, ':', m1, m2, ':', s1, s2], cs.drop 7)
    else none
  | _ => none

/-- Digit-and-close part of the placeholder pattern after the opening
literal. -/
def phTryCap : List Char → Option (List Char × List Char)
  | d1 :: d2 :: cs =>
    if isDig d1 then
      if isDig d2 then
        match phTry2 d1 d2 cs with
        | some r => some r
        | none => phTry1 d1 (d2 :: cs)
      else phTry1 d1 (d2 :: cs)
    else none
  | _ => none

/-- Match attempt of the split pattern
`<span class="timestamp-placeholder">(\d{1,2}:\d{2}:\d{2})<\/span>` at one
position. -/
def phTry (cs : List Char) : Option (List Char × List Char) :=
  if litAt phOpen cs then phTryCap (cs.drop 36) else none

theorem phTry1_decomp {d1 : Char} {cs label rest : List Char}
    (h : phTry1 d1 cs = some (label, rest)) :
    ∃ m1 m2 s1 s2, cs = ':' :: m1 :: m2 :: ':' :: s1 :: s2 :: (phClose ++ rest) ∧
      label = [d1, ':', m1, m2, ':', s1, s2] ∧
      isDig m1 = true ∧ isDig m2 = true ∧ isDig s1 = true ∧ isDig s2 = true := by
  unfold phTry1 at h
  split at h
  case h_2 => exact absurd h (by simp)
  case h_1 m1 m2 s1 s2 cs2 =>
    split at h
    case isFalse => exact absurd h (by simp)
    case isTrue hd =>
      simp only [Bool.and_eq_true] at hd
      obtain ⟨⟨⟨⟨hm1, hm2⟩, hs1⟩, hs2⟩, hcl⟩ := hd
      obtain ⟨t, ht⟩ := litAt_iff_append.1 hcl
      have ht7 : cs2.drop 7 = t := by
        rw [ht, show (7 : Nat) = phClose.length from rfl]
        exact List.drop_left _ _
      simp only [Option.some.injEq, Prod.mk.injEq] at h
      obtain ⟨hlbl, hrest⟩ := h
      refine ⟨m1, m2, s1, s2, ?_, hlbl.symm, hm1, hm2, hs1, hs2⟩
      rw [ht, ← hrest, ht7]

theorem phTry2_decomp {d1 d2 : Char} {cs label rest : List Char}
    (h : phTry2 d1 d2 cs = some (label, rest)) :
    ∃ m1 m2 s1 s2, cs = ':' :: m1 :: m2 :: ':' :: s1 :: s2 :: (phClose ++ rest) ∧
      label = [d1, d2, ':', m1, m2, ':', s1, s2] ∧
      isDig m1 = true ∧ isDig m2 = true ∧ isDig s1 = true ∧ isDig s2 = true := by
  unfold phTry2 at h
  split at h
  case h_2 => exact absurd h (by simp)
  case h_1 m1 m2 s1 s2 cs2 =>
    split at h
    case isFalse => exact absurd h (by simp)
    case isTrue hd =>
      simp only [Bool.and_eq_true] at hd
      obtain ⟨⟨⟨⟨hm1, hm2⟩, hs1⟩, hs2⟩, hcl⟩ := hd
      obtain ⟨t, ht⟩ := litAt_iff_append.1 hcl
      have ht7 : cs2.drop 7 = t := by
        rw [ht, show (7 : Nat) = phClose.length from rfl]
        exact List.drop_left _ _
      simp only [Option.some.injEq, Prod.mk.injEq] at h
      obtain ⟨hlbl, hrest⟩ := h
      refine ⟨m1, m2, s1, s2, ?_, hlbl.symm, hm1, hm2, hs1, hs2⟩
      rw [ht, ← hrest, ht7]

theorem phTryCap_decomp {cs label rest : List Char}
    (h : phTryCap cs = some (label, rest)) :
    cs = label ++ phClose ++ rest ∧ labelShape label := by
  cases cs with
  | nil => exact absurd h (by simp [phTryCap])
  | cons d1 cs0 =>
    cases cs0 with
    | nil => exact absurd h (by simp [phTryCap])
    | cons d2 cs2 =>
      simp only [phTryCap] at h
      split at h
      case isFalse => exact absurd h (by simp)
      case isTrue hd1 =>
        by_cases hd2 : isDig d2 = true
        · rw [if_pos hd2] at h
          cases hp2 : phTry2 d1 d2 cs2 with
          | some r =>
            rw [hp2] at h
            have h2 : some r = some (label, rest) := h
            simp only [Option.some.injEq] at h2
            subst h2
            obtain ⟨m1, m2, s1, s2, hcs, hlbl, hm1, hm2, hs1, hs2⟩ := phTry2_decomp hp2
            subst hlbl
            rw [hcs]
            constructor
            · simp only [List.cons_append, List.nil_append, List.append_assoc]
            · exact Or.inr ⟨d1, d2, m1, m2, s1, s2, rfl, hd1, hd2, hm1, hm2, hs1, hs2⟩
          | none =>
            rw [hp2] at h
            have h2 : phTry1 d1 (d2 :: cs2) = some (label, rest) := h
            obtain ⟨m1, m2, s1, s2, hcs, hlbl, hm1, hm2, hs1, hs2⟩ := phTry1_decomp h2
            exfalso
            have hcol : d2 = ':' := by
              have hh := congrArg (fun l : List Char => l.head?) hcs
              simpa using hh
            rw [hcol] at hd2
            exact absurd hd2 (by decide)
        · rw [if_neg hd2] at h
          obtain ⟨m1, m2, s1, s2, hcs, hlbl, hm1, hm2, hs1, hs2⟩ := phTry1_decomp h
          subst hlbl
          simp only [List.cons.injEq] at hcs
          obtain ⟨hceq, hc2eq⟩ := hcs
          subst hceq
          subst hc2eq
          constructor
          · simp only [List.cons_append, List.nil_append, List.append_assoc]
          · exact Or.inl ⟨d1, m1, m2, s1, s2, rfl, hd1, hm1, hm2, hs1, hs2⟩

theorem phTry_decomp {cs label rest : List Char}
    (h : phTry cs = some (label, rest)) :
    cs = phOpen ++ (label ++ (phClose ++ rest)) ∧ labelShape label := by
  unfold phTry at h
  split at h
  case isFalse => exact absurd h (by simp)
  case isTrue hlit =>
    obtain ⟨t, ht⟩ := litAt_iff_append.1 hlit
    have hdrop : cs.drop 36 = t := by
      rw [ht, show (36 : Nat) = phOpen.length from rfl]
      exact List.drop_left _ _
    rw [hdrop] at h
    obtain ⟨hteq, hshape⟩ := phTryCap_decomp h
    refine ⟨?_, hshape⟩
    rw [ht, hteq]
    simp [List.append_assoc]

theorem phTry_of_form {label z : List Char} (hs : labelShape label) :
    phTry (phOpen ++ (label ++ (phClose ++ z))) = some (label, z) := by
  unfold phTry
  rw [if_pos (litAt_append_self _ _)]
  rw [show (36 : Nat) = phOpen.length from rfl, List.drop_left]
  have h7 : (phClose ++ z).drop 7 = z := by
    rw [show (7 : Nat) = phClose.length from rfl]
    exact List.drop_left _ _
  rcases hs with ⟨a, m1, m2, s1, s2, rfl, ha, hm1, hm2, hs1, hs2⟩ |
    ⟨a, b, m1, m2, s1, s2, rfl, ha, hb, hm1, hm2, hs1, hs2⟩
  · show phTryCap (a :: ':' :: (m1 :: m2 :: ':' :: s1 :: s2 :: (phClose ++ z))) = _
    simp only [phTryCap]
    rw [if_pos ha, if_neg (by decide : ¬(isDig ':' = true))]
    simp only [phTry1]
    rw [if_pos (by simp [hm1, hm2, hs1, hs2, litAt_append_self])]
    rw [h7]
  · show phTryCap (a :: b :: (':' :: m1 :: m2 :: ':' :: s1 :: s2 :: (phClose ++ z))) = _
    simp only [phTryCap]
    rw [if_pos ha, if_pos hb]
    have hp2 : phTry2 a b (':' :: m1 :: m2 :: ':' :: s1 :: s2 :: (phClose ++ z)) =
        some ([a, b, ':', m1, m2, ':', s1, s2], z) := by
      simp only [phTry2]
      rw [if_pos (by simp [hm1, hm2, hs1, hs2, litAt_append_self])]
      rw [h7]
    rw [hp2]

theorem length_dropWhile_le (p : Char → Bool) :
    ∀ l : List Char, (l.dropWhile p).length ≤ l.length := by
  intro l
  induction l with
  | nil => simp [List.dropWhile]
  | cons c cs ih =>
    simp only [List.dropWhile]
    split
    · exact Nat.le_trans ih (Nat.le_succ _)
    · exact Nat.le_refl _

/-- `.replace(/\*\*([^*]+)\*\*/g, '<strong class="bold-text">$1</strong>')`
as a left-to-right scanner: on a failed match the scan advances one
character, on success it resumes after the closing `**`. -/
def replaceBold : List Char → List Char
  | [] => []
  | [c] => [c]
  | c :: c2 :: rest =>
    if c = '*' && c2 = '*' then
      if (rest.takeWhile (fun x => !(x = '*'))).isEmpty then
        c :: replaceBold (c2 :: rest)
      else if litAt ['*', '*'] (rest.dropWhile (fun x => !(x = '*'))) then
        boldOpen ++ rest.takeWhile (fun x => !(x = '*')) ++ boldClose ++
          replaceBold ((rest.dropWhile (fun x => !(x = '*'))).drop 2)
      else c :: replaceBold (c2 :: rest)
    else c :: replaceBold (c2 :: rest)
termination_by l => l.length
decreasing_by
  all_goals simp only [List.length_cons]
  · omega
  · have h1 := length_dropWhile_le (fun x => !(x = '*')) rest
    have h2 := List.length_drop 2 (rest.dropWhile (fun x => !(x = '*')))
    omega
  · omega
  · omega

theorem drop_dropWhile_len (p : Char → Bool) (l : List Char) (k : Nat) :
    ((l.dropWhile p).drop k).length ≤ l.length :=
  Nat.le_trans (by rw [List.length_drop]; omega) (length_dropWhile_le p l)

/-- `.replace(/\*([^*]+)\*/g, '<em class="italic-text">$1</em>')` as a
left-to-right scanner. -/
def replaceItalic : List Char → List Char
  | [] => []
  | c :: rest =>
    if c = '*' then
      if (rest.takeWhile (fun x => !(x = '*'))).isEmpty then
        c :: replaceItalic rest
      else if litAt ['*'] (rest.dropWhile (fun x => !(x = '*'))) then
        emOpen ++ rest.takeWhile (fun x => !(x = '*')) ++ emClose ++
          replaceItalic ((rest.dropWhile (fun x => !(x = '*'))).drop 1)
      else c :: replaceItalic rest
    else c :: replaceItalic rest
termination_by l => l.length
decreasing_by
  all_goals simp only [List.length_cons]
  · omega
  · exact Nat.lt_of_le_of_lt (drop_dropWhile_len _ _ _) (by omega)
  · omega
  · omega

/-- `.replace(/\((\d{1,2}):(\d{2}):(\d{2})\)/g,
'<span class="timestamp-placeholder">$1:$2:$3</span>')` as a scanner. -/
def replaceCites : List Char → List Char
  | [] => []
  | c :: cs =>
    match h : tryCite (c :: cs) with
    | some (label, rest) => phOpen ++ label ++ phClose ++ replaceCites rest
    | none => c :: replaceCites cs
termination_by l => l.length
decreasing_by
  · have hd := congrArg List.length (tryCite_decomp h).1
    simp only [List.length_cons, List.length_append] at hd ⊢
    omega
  · simp only [List.length_cons]
    omega

/-- Prepend a character to the leading text piece, creating one if the
list does not start with text. -/
def consPiece (c : Char) : List Piece → List Piece
  | Piece.text s :: ps => Piece.text (c :: s) :: ps
  | ps => Piece.text [c] :: ps

/-- `formattedText.split(/<span class="timestamp-placeholder">(\d{1,2}:\d{2}:\d{2})<\/span>/)`
followed by the render loop: even parts become inert text when non-empty,
captured labels become buttons seeking to `parseTimeToSeconds(label)`. -/
def splitScan : List Char → List Piece
  | [] => []
  | c :: cs =>
    match h : phTry (c :: cs) with
    | some (label, rest) =>
      Piece.button label (parseTimeToSeconds label) :: splitScan rest
    | none => consPiece c (splitScan cs)
termination_by l => l.length
decreasing_by
  · have hd := congrArg List.length (phTry_decomp h).1
    have h36 : phOpen.length = 36 := by decide
    have h7 : phClose.length = 7 := by decide
    simp only [List.length_cons, List.length_append] at hd ⊢
    omega
  · simp only [List.length_cons]
    omega

/-- The `formatText` pipeline of the source: markdown replacement,
citation-to-placeholder replacement, placeholder split; if the rendered
list is empty the raw input is returned as a single text piece. -/
def formatText (text : List Char) : List Piece :=
  if (splitScan (replaceCites (replaceItalic (replaceBold text)))).isEmpty then
    [Piece.text text]
  else splitScan (replaceCites (replaceItalic (replaceBold text)))

/-- Seconds denoted by a captured `H:MM:SS` / `HH:MM:SS` label. -/
def labelSeconds : List Char → Nat
  | [a, _, m1, m2, _, s1, s2] =>
    dv a * 3600 + (dv m1 * 10 + dv m2) * 60 + (dv s1 * 10 + dv s2)
  | [a, b, _, m1, m2, _, s1, s2] =>
    (dv a * 10 + dv b) * 3600 + (dv m1 * 10 + dv m2) * 60 + (dv s1 * 10 + dv s2)
  | _ => 0

/-- Specification-side renderer: scan the input once, turn each
parenthesised `(H:MM:SS)` citation into a button at that time and keep
everything else as literal text. -/
def citeScan : List Char → List Piece
  | [] => []
  | c :: cs =>
    match h : tryCite (c :: cs) with
    | some (label, rest) =>
      Piece.button label (labelSeconds label) :: citeScan rest
    | none => consPiece c (citeScan cs)
termination_by l => l.length
decreasing_by
  · have hd := congrArg List.length (tryCite_decomp h).1
    simp only [List.length_cons, List.length_append] at hd ⊢
    omega
  · simp only [List.length_cons]
    omega

/-- Specification-side rendering of a whole message. -/
def citeScanTop (text : List Char) : List Piece :=
  if text.isEmpty then [Piece.text text] else citeScan text

/-- Whether the text contains a parenthesised `(H:MM:SS)` citation. -/
def containsCitation : List Char → Bool
  | [] => false
  | c :: cs => (tryCite (c :: cs)).isSome || containsCitation cs

theorem replaceCites_nil : replaceCites [] = [] := by
  simp [replaceCites]

theorem splitScan_nil : splitScan [] = [] := by
  simp [splitScan]

theorem citeScan_nil : citeScan [] = [] := by
  simp [citeScan]

theorem replaceCites_cons_some {c : Char} {cs label rest : List Char}
    (h : tryCite (c :: cs) = some (label, rest)) :
    replaceCites (c :: cs) = phOpen ++ label ++ phClose ++ replaceCites rest := by
  simp only [replaceCites]
  split
  case h_1 label2 rest2 heq =>
    rw [h] at heq
    simp only [Option.some.injEq, Prod.mk.injEq] at heq
    rw [heq.1, heq.2]
  case h_2 heq =>
    rw [h] at heq
    cases heq

theorem replaceCites_cons_none {c : Char} {cs : List Char}
    (h : tryCite (c :: cs) = none) :
    replaceCites (c :: cs) = c :: replaceCites cs := by
  simp only [replaceCites]
  split
  case h_1 label2 rest2 heq =>
    rw [h] at heq
    cases heq
  case h_2 heq => rfl

theorem splitScan_cons_some {c : Char} {cs label rest : List Char}
    (h : phTry (c :: cs) = some (label, rest)) :
    splitScan (c :: cs) =
      Piece.button label (parseTimeToSeconds label) :: splitScan rest := by
  simp only [splitScan]
  split
  case h_1 label2 rest2 heq =>
    rw [h] at heq
    simp only [Option.some.injEq, Prod.mk.injEq] at heq
    rw [heq.1, heq.2]
  case h_2 heq =>
    rw [h] at heq
    cases heq

theorem splitScan_cons_none {c : Char} {cs : List Char}
    (h : phTry (c :: cs) = none) :
    splitScan (c :: cs) = consPiece c (splitScan cs) := by
  simp only [splitScan]
  split
  case h_1 label2 rest2 heq =>
    rw [h] at heq
    cases heq
  case h_2 heq => rfl

theorem citeScan_cons_some {c : Char} {cs label rest : List Char}
    (h : tryCite (c :: cs) = some (label, rest)) :
    citeScan (c :: cs) =
      Piece.button label (labelSeconds label) :: citeScan rest := by
  simp only [citeScan]
  split
  case h_1 label2 rest2 heq =>
    rw [h] at heq
    simp only [Option.some.injEq, Prod.mk.injEq] at heq
    rw [heq.1, heq.2]
  case h_2 heq =>
    rw [h] at heq
    cases heq

theorem citeScan_cons_none {c : Char} {cs : List Char}
    (h : tryCite (c :: cs) = none) :
    citeScan (c :: cs) = consPiece c (citeScan cs) := by
  simp only [citeScan]
  split
  case h_1 label2 rest2 heq =>
    rw [h] at heq
    cases heq
  case h_2 heq => rfl

theorem replaceBold_id : ∀ s : List Char, (∀ c ∈ s, c ≠ '*') → replaceBold s = s := by
  intro s
  induction s with
  | nil => intro _; simp [replaceBold]
  | cons c cs ih =>
    intro h
    cases cs with
    | nil => simp [replaceBold]
    | cons c2 rest =>
      have hc : c ≠ '*' := h c (by simp)
      have ih2 := ih (fun x hx => h x (List.mem_cons_of_mem _ hx))
      simp only [replaceBold]
      rw [if_neg (by simp [hc])]
      rw [ih2]

theorem replaceItalic_id : ∀ s : List Char, (∀ c ∈ s, c ≠ '*') → replaceItalic s = s := by
  intro s
  induction s with
  | nil => intro _; simp [replaceItalic]
  | cons c cs ih =>
    intro h
    have hc : c ≠ '*' := h c (by simp)
    have ih2 := ih (fun x hx => h x (List.mem_cons_of_mem _ hx))
    simp only [replaceItalic]
    rw [if_neg hc]
    rw [ih2]

theorem litAt_append_of_le : ∀ (a b X : List Char), a.length ≤ b.length →
    litAt a (b ++ X) = litAt a b
  | [], b, X, _ => by simp [litAt]
  | x :: as, [], X, h => by
    simp only [List.length_cons, List.length_nil] at h
    omega
  | x :: as, y :: bs, X, h => by
    simp only [List.cons_append, litAt, List.append_eq]
    rw [litAt_append_of_le as bs X (by simp only [List.length_cons] at h; omega)]

/-- The opening placeholder literal has no proper border: none of its proper
suffixes is one of its prefixes. -/
theorem phOpen_no_border : ∀ j, j < 36 → 0 < j → litAt (phOpen.drop j) phOpen = false := by
  decide

/-- Citation replacement can only create occurrences of proper suffixes of the
placeholder literal where the input already had them. -/
theorem phM : ∀ (t : List Char) (j : Nat), 0 < j → j ≤ 36 →
    litAt (phOpen.drop j) (replaceCites t) = true →
    litAt (phOpen.drop j) t = true
  | [], j, _, _, hlit => by
    rw [replaceCites_nil] at hlit
    exact hlit
  | c :: cs, j, hj1, hj2, hlit => by
    by_cases hj36 : j = 36
    · subst hj36
      rw [show phOpen.drop 36 = [] from by decide]
      rfl
    · have hjlt : j < 36 := by omega
      have hjlen : j < phOpen.length := by
        have h36 : phOpen.length = 36 := by decide
        omega
      cases htc : tryCite (c :: cs) with
      | some pr =>
        obtain ⟨label, rest⟩ := pr
        rw [replaceCites_cons_some htc] at hlit
        simp only [List.append_assoc] at hlit
        have hlen : (phOpen.drop j).length ≤ phOpen.length := by
          rw [List.length_drop]
          omega
        rw [litAt_append_of_le _ _ _ hlen] at hlit
        rw [phOpen_no_border j hjlt hj1] at hlit
        exact absurd hlit (by decide)
      | none =>
        rw [replaceCites_cons_none htc] at hlit
        rw [List.drop_eq_getElem_cons hjlen] at hlit ⊢
        simp only [litAt, Bool.and_eq_true, decide_eq_true_eq] at hlit
        obtain ⟨hg, hrec⟩ := hlit
        have hind := phM cs (j + 1) (by omega) (by omega) hrec
        simp only [litAt, Bool.and_eq_true, decide_eq_true_eq]
        exact ⟨hg, hind⟩

theorem hasSub_cons_false {pat : List Char} {c : Char} {cs : List Char}
    (h : hasSub pat (c :: cs) = false) :
    litAt pat (c :: cs) = false ∧ hasSub pat cs = false := by
  simp only [hasSub, Bool.or_eq_false_iff] at h
  exact h

theorem hasSub_append_false {pat B : List Char} :
    ∀ {A : List Char}, hasSub pat (A ++ B) = false → hasSub pat B = false := by
  intro A
  induction A with
  | nil => simp
  | cons a as ih =>
    intro h
    rw [List.cons_append] at h
    exact ih (hasSub_cons_false h).2

theorem parseTime_label {l : List Char} (hs : labelShape l) :
    parseTimeToSeconds l = labelSeconds l := by
  rcases hs with ⟨a, m1, m2, s1, s2, rfl, ha, hm1, hm2, hs1, hs2⟩ |
    ⟨a, b, m1, m2, s1, s2, rfl, ha, hb, hm1, hm2, hs1, hs2⟩
  · have hmem1 : ∀ c ∈ [a], c ≠ ':' := by
      intro c hc
      rcases List.mem_cons.1 hc with rfl | hc2
      · exact isDig_ne_colon ha
      · cases hc2
    have hmem2 : ∀ c ∈ [m1, m2], c ≠ ':' := by
      intro c hc
      rcases List.mem_cons.1 hc with rfl | hc2
      · exact isDig_ne_colon hm1
      rcases List.mem_cons.1 hc2 with rfl | hc3
      · exact isDig_ne_colon hm2
      · cases hc3
    have hmem3 : ∀ c ∈ [s1, s2], c ≠ ':' := by
      intro c hc
      rcases List.mem_cons.1 hc with rfl | hc2
      · exact isDig_ne_colon hs1
      rcases List.mem_cons.1 hc2 with rfl | hc3
      · exact isDig_ne_colon hs2
      · cases hc3
    have hsplit : splitOnChar ':' [a, ':', m1, m2, ':', s1, s2] =
        [[a], [m1, m2], [s1, s2]] := by
      have e1 : [a, ':', m1, m2, ':', s1, s2] =
          [a] ++ ':' :: ([m1, m2] ++ ':' :: [s1, s2]) := by simp
      rw [e1, splitOnChar_append_sep [a] _ hmem1,
        splitOnChar_append_sep [m1, m2] _ hmem2,
        splitOnChar_of_no_sep [s1, s2] hmem3]
    simp only [parseTimeToSeconds, hsplit, List.map_cons, List.map_nil]
    simp only [charsToNat, List.foldl_cons, List.foldl_nil, labelSeconds]
    ring
  · have hmem1 : ∀ c ∈ [a, b], c ≠ ':' := by
      intro c hc
      rcases List.mem_cons.1 hc with rfl | hc2
      · exact isDig_ne_colon ha
      rcases List.mem_cons.1 hc2 with rfl | hc3
      · exact isDig_ne_colon hb
      · cases hc3
    have hmem2 : ∀ c ∈ [m1, m2], c ≠ ':' := by
      intro c hc
      rcases List.mem_cons.1 hc with rfl | hc2
      · exact isDig_ne_colon hm1
      rcases List.mem_cons.1 hc2 with rfl | hc3
      · exact isDig_ne_colon hm2
      · cases hc3
    have hmem3 : ∀ c ∈ [s1, s2], c ≠ ':' := by
      intro c hc
      rcases List.mem_cons.1 hc with rfl | hc2
      · exact isDig_ne_colon hs1
      rcases List.mem_cons.1 hc2 with rfl | hc3
      · exact isDig_ne_colon hs2
      · cases hc3
    have hsplit : splitOnChar ':' [a, b, ':', m1, m2, ':', s1, s2] =
        [[a, b], [m1, m2], [s1, s2]] := by
      have e1 : [a, b, ':', m1, m2, ':', s1, s2] =
          [a, b] ++ ':' :: ([m1, m2] ++ ':' :: [s1, s2]) := by simp
      rw [e1, splitOnChar_append_sep [a, b] _ hmem1,
        splitOnChar_append_sep [m1, m2] _ hmem2,
        splitOnChar_of_no_sep [s1, s2] hmem3]
    simp only [parseTimeToSeconds, hsplit, List.map_cons, List.map_nil]
    simp only [charsToNat, List.foldl_cons, List.foldl_nil, labelSeconds]
    ring

theorem splitScan_of_form {label z : List Char} (hs : labelShape label) :
    splitScan (phOpen ++ (label ++ (phClose ++ z))) =
      Piece.button label (parseTimeToSeconds label) :: splitScan z := by
  have hform := phTry_of_form hs (z := z)
  obtain ⟨A, hOpen⟩ : ∃ A, phOpen = '<' :: A := ⟨phOpen.drop 1, by decide⟩
  rw [hOpen, List.cons_append] at hform ⊢
  exact splitScan_cons_some hform

/-- On placeholder-free input, splitting the citation-replaced text is the
same as scanning the raw text for citations. -/
theorem splitScan_replaceCites : ∀ t : List Char, hasSub phOpen t = false →
    splitScan (replaceCites t) = citeScan t
  | [], _ => by
    rw [replaceCites_nil, splitScan_nil, citeScan_nil]
  | c :: cs, hph => by
    have hphc := hasSub_cons_false hph
    cases htc : tryCite (c :: cs) with
    | some pr =>
      obtain ⟨label, rest⟩ := pr
      obtain ⟨hdec, hshape⟩ := tryCite_decomp htc
      have hsplit2 : c :: cs = ('(' :: label ++ [')']) ++ rest := by
        rw [hdec]
        simp
      have hphrest : hasSub phOpen rest = false :=
        hasSub_append_false (by rw [← hsplit2]; exact hph)
      rw [replaceCites_cons_some htc]
      simp only [List.append_assoc]
      rw [splitScan_of_form hshape]
      rw [citeScan_cons_some htc]
      rw [splitScan_replaceCites rest hphrest]
      rw [parseTime_label hshape]
    | none =>
      rw [replaceCites_cons_none htc]
      have hphn : phTry (c :: replaceCites cs) = none := by
        cases hpt : phTry (c :: replaceCites cs) with
        | none => rfl
        | some pr =>
          exfalso
          have hlit : litAt phOpen (c :: replaceCites cs) = true := by
            by_cases hl : litAt phOpen (c :: replaceCites cs) = true
            · exact hl
            · unfold phTry at hpt
              rw [if_neg hl] at hpt
              cases hpt
          obtain ⟨A, hOpen⟩ : ∃ A, phOpen = '<' :: A := ⟨phOpen.drop 1, by decide⟩
          have hA : A = phOpen.drop 1 := by
            rw [List.drop_one]
            exact (by simpa using congrArg List.tail hOpen : phOpen.tail = A).symm
          rw [hOpen] at hlit
          simp only [litAt, Bool.and_eq_true, decide_eq_true_eq] at hlit
          obtain ⟨hceq, hlit2⟩ := hlit
          rw [hA] at hlit2
          have hlit3 := phM cs 1 (by omega) (by omega) hlit2
          have hfull : litAt phOpen (c :: cs) = true := by
            rw [hOpen]
            simp only [litAt, Bool.and_eq_true, decide_eq_true_eq]
            exact ⟨hceq, by rw [hA]; exact hlit3⟩
          rw [hphc.1] at hfull
          exact absurd hfull (by decide)
      rw [splitScan_cons_none hphn]
      rw [citeScan_cons_none htc]
      rw [splitScan_replaceCites cs hphc.2]
termination_by t _ => t.length
decreasing_by
  · simp only [List.length_cons]
    omega
  · have hlen := congrArg List.length hsplit2
    simp only [List.length_cons, List.length_append] at hlen ⊢
    omega

theorem consPiece_ne_nil (c : Char) (ps : List Piece) : consPiece c ps ≠ [] := by
  cases ps with
  | nil => simp [consPiece]
  | cons p ps2 => cases p <;> simp [consPiece]

theorem citeScan_ne_nil (c : Char) (cs : List Char) : citeScan (c :: cs) ≠ [] := by
  cases htc : tryCite (c :: cs) with
  | some pr =>
    obtain ⟨label, rest⟩ := pr
    rw [citeScan_cons_some htc]
    simp
  | none =>
    rw [citeScan_cons_none htc]
    exact consPiece_ne_nil c (citeScan cs)

/-- Texts with no citation anywhere pass through citation replacement
unchanged. -/
theorem replaceCites_id : ∀ t : List Char, containsCitation t = false →
    replaceCites t = t
  | [], _ => replaceCites_nil
  | c :: cs, h => by
    simp only [containsCitation, Bool.or_eq_false_iff] at h
    obtain ⟨h1, h2⟩ := h
    have htc : tryCite (c :: cs) = none := by
      cases htc : tryCite (c :: cs) with
      | none => rfl
      | some pr =>
        rw [htc] at h1
        cases h1
    rw [replaceCites_cons_none htc]
    rw [replaceCites_id cs h2]

/-- On star-free, placeholder-free text the whole pipeline coincides with
the one-pass citation scan. -/
theorem formatText_no_star (text : List Char)
    (hstar : ∀ c ∈ text, c ≠ '*')
    (hph : hasSub phOpen text = false) :
    formatText text = citeScanTop text := by
  unfold formatText citeScanTop
  rw [replaceBold_id text hstar, replaceItalic_id text hstar]
  cases text with
  | nil =>
    rw [replaceCites_nil, splitScan_nil]
    rfl
  | cons c cs =>
    rw [splitScan_replaceCites (c :: cs) hph]
    have hne := citeScan_ne_nil c cs
    have h1 : (citeScan (c :: cs)).isEmpty = false := by
      cases hcc : citeScan (c :: cs) with
      | nil => exact absurd hcc hne
      | cons p ps => rfl
    rw [h1]
    simp

/-- C3 counterexample: the raw input
`<span class="timestamp-placeholder">1:02:03</span>` contains no
`(H:MM:SS)` citation at all, yet `formatText` turns it into a clickable
timestamp button seeking to 3723 seconds, so text not matching the
citation pattern can still be treated as a citation. -/
theorem c3_counterexample :
    formatText (("<span class=\"timestamp-placeholder\">1:02:03</span>").toList) =
      [Piece.button (("1:02:03").toList) 3723] ∧
    containsCitation
      (("<span class=\"timestamp-placeholder\">1:02:03</span>").toList) = false := by
  constructor
  · have hshape : labelShape (("1:02:03").toList) :=
      Or.inl ⟨'1', '0', '2', '0', '3', by decide, by decide, by decide, by decide,
        by decide, by decide⟩
    have hstar : ∀ c ∈ ("<span class=\"timestamp-placeholder\">1:02:03</span>").toList,
        c ≠ '*' := by decide
    have hcc : containsCitation
        (("<span class=\"timestamp-placeholder\">1:02:03</span>").toList) = false := by
      decide
    have heq : ("<span class=\"timestamp-placeholder\">1:02:03</span>").toList =
        phOpen ++ (("1:02:03").toList ++ (phClose ++ [])) := by decide
    unfold formatText
    rw [replaceBold_id _ hstar, replaceItalic_id _ hstar, replaceCites_id _ hcc]
    rw [heq, splitScan_of_form hshape, splitScan_nil]
    decide
  · decide


/-- Closed instance of `c4_video_identity` at concrete URLs. -/
theorem c4_video_identity_witness :
    getVideoId (("https://www.youtube.com/watch?v=abc123").toList) =
      some (("abc123").toList) ∧
    (¬ occursCap watchLit (("hello").toList) ∧ ¬ occursCap shortLit (("hello").toList) ∧
      ¬ occursCap embedLit (("hello").toList)) :=
  ⟨by
    have h := (c4_video_identity.1 (("abc123").toList) (by decide) (by decide)).1
    rw [show ("https://www.youtube.com/watch?v=abc123").toList =
      ("https://www.youtube.com/watch?v=").toList ++ ("abc123").toList from by decide]
    exact h,
   (c4_video_identity.2 (("hello").toList)).mp (by decide)⟩

/-- Closed instance of `c2_chapter_ordering` on a one-segment transcript. -/
theorem c2_chapter_ordering_witness :
    List.Chain' (fun a b : Chapter => a.seconds ≤ b.seconds)
      (createTimestampsFromTranscript
        [⟨some (("hello").toList), some (("0:00:00").toList),
          some (("0:01:00").toList)⟩]) :=
  (c2_chapter_ordering
    [⟨some (("hello").toList), some (("0:00:00").toList), some (("0:01:00").toList)⟩]
    (by
      intro j1 j2 s1 s2 hle h1 h2
      cases j1 with
      | zero =>
        rw [List.get?_cons_zero] at h1
        cases j2 with
        | zero =>
          rw [List.get?_cons_zero] at h2
          injection h1 with h1e
          injection h2 with h2e
          subst h1e
          subst h2e
          exact Nat.le_refl _
        | succ n =>
          rw [List.get?_cons_succ, List.get?_nil] at h2
          cases h2
      | succ n =>
        rw [List.get?_cons_succ, List.get?_nil] at h1
        cases h1)
    (by
      intro j s lastSeg h1 h2
      cases j with
      | zero =>
        rw [List.get?_cons_zero] at h1
        injection h1 with h1e
        subst h1e
        rw [List.getLast?_singleton] at h2
        injection h2 with h2e
        subst h2e
        decide
      | succ n =>
        rw [List.get?_cons_succ, List.get?_nil] at h1
        cases h1)).1

/-- Closed instance of the truncation clauses of `c5_title_bounds`. -/
theorem c5_title_bounds_witness :
    trunc30 (List.replicate 31 'a') =
      (List.replicate 31 'a').take 27 ++ ("...").toList ∧
    trunc40 (List.replicate 41 'a') =
      (List.replicate 41 'a').take 37 ++ ("...").toList :=
  ⟨c5_title_bounds.2.2.1 _ (by decide), c5_title_bounds.2.2.2 _ (by decide)⟩

/-- Closed instance of the soundness clause of `c6_generative_line_accept` at the
line `1:02:03 - Intro`. -/
theorem c6_generative_line_accept_witness :
    ∃ pre hds m1 m2 s1 s2 mid sep cs2 title,
      ("1:02:03 - Intro").toList = pre ++ hds ++ ':' :: m1 :: m2 :: ':' :: s1 :: s2 ::
        (mid ++ sep :: cs2) ∧
      (hds.length = 1 ∨ hds.length = 2) ∧ (∀ c ∈ hds, isDig c = true) ∧
      isDig m1 = true ∧ isDig m2 = true ∧ isDig s1 = true ∧ isDig s2 = true ∧
      (∀ c ∈ mid, isSpaceChar c = true) ∧ (sep = '-' ∨ sep = '–') ∧
      titleFrom cs2 = some title ∧
      (⟨("1:02:03").toList, ("Intro").toList, 3723⟩ : Chapter).seconds =
        charsToNat hds * 3600 + charsToNat [m1, m2] * 60 + charsToNat [s1, s2] ∧
      (⟨("1:02:03").toList, ("Intro").toList, 3723⟩ : Chapter).title =
        trunc40 (removeStarStar (trimChars title)) ∧
      hasSub (('*') :: ('*') :: [])
        (⟨("1:02:03").toList, ("Intro").toList, 3723⟩ : Chapter).title = false :=
  c6_generative_line_accept.2 (("1:02:03 - Intro").toList)
    ⟨("1:02:03").toList, ("Intro").toList, 3723⟩ (by decide)

/-- Closed instance of `c1_generative_only`: a successful load issues the
generative request. -/
theorem c1_generative_only_witness :
    AppCall.runGenerative ∈
      (loadVideo ⟨("https://youtu.be/abc").toList, [], [], [], [], []⟩
        (FetchOutcome.ok ⟨true, [], ("T").toList⟩) FetchOutcome.netError).2 :=
  (c1_generative_only ⟨("https://youtu.be/abc").toList, [], [], [], [], []⟩
    (FetchOutcome.ok ⟨true, [], ("T").toList⟩) FetchOutcome.netError).2
    (("abc").toList) ⟨true, [], ("T").toList⟩ (by decide) rfl rfl

/-- Closed instance of `c10_invalid_url`: a non-URL input produces no calls. -/
theorem c10_invalid_url_witness :
    (loadVideo ⟨("hello").toList, [], [], [], [], []⟩ FetchOutcome.netError
      FetchOutcome.netError).2 = [] :=
  (c10_invalid_url ⟨("hello").toList, [], [], [], [], []⟩ FetchOutcome.netError
    FetchOutcome.netError (by decide)).2.2.2.2.2

/-- Closed instance of `c8_single_flight`: three callers, one extraction. -/
theorem c8_single_flight_witness :
    (cacheRun CacheEntryState.vacant
        ([CacheEvent.arrive 1, CacheEvent.arrive 2] ++
          CacheEvent.resolve (7 : Nat) :: [CacheEvent.arrive 3])).2.countP isStart = 1 :=
  (c8_single_flight [CacheEvent.arrive 1, CacheEvent.arrive 2] [CacheEvent.arrive 3] 7
    (by
      intro e he
      rcases List.mem_cons.1 he with rfl | he2
      · exact ⟨1, rfl⟩
      rcases List.mem_cons.1 he2 with rfl | he3
      · exact ⟨2, rfl⟩
      · cases he3)
    (by
      intro e he
      rcases List.mem_cons.1 he with rfl | he2
      · exact ⟨3, rfl⟩
      · cases he2)
    (by simp)).1

/- ## C3 strengthening: citations survive the markdown passes -/

/-- Characters a `(H:MM:SS)` citation match can consist of. -/
def citeChar (c : Char) : Bool :=
  isDig c || c = ':' || c = '(' || c = ')'

/-- The clickable buttons of a rendered piece list, in order. -/
def buttonsOf : List Piece → List (List Char × Nat)
  | [] => []
  | Piece.button l s :: ps => (l, s) :: buttonsOf ps
  | Piece.text _ :: ps => buttonsOf ps

/-- Specification-side list of the `(H:MM:SS)` citation labels of a text,
scanned left to right. -/
def citeLabels : List Char → List (List Char)
  | [] => []
  | c :: cs =>
    match h : tryCite (c :: cs) with
    | some (label, rest) => label :: citeLabels rest
    | none => citeLabels cs
termination_by l => l.length
decreasing_by
  · have hd := congrArg List.length (tryCite_decomp h).1
    simp only [List.length_cons, List.length_append] at hd ⊢
    omega
  · simp only [List.length_cons]
    omega

theorem citeLabels_nil : citeLabels [] = [] := by
  simp [citeLabels]

theorem citeLabels_cons_some {c : Char} {cs label rest : List Char}
    (h : tryCite (c :: cs) = some (label, rest)) :
    citeLabels (c :: cs) = label :: citeLabels rest := by
  simp only [citeLabels]
  split
  case h_1 label2 rest2 heq =>
    rw [h] at heq
    simp only [Option.some.injEq, Prod.mk.injEq] at heq
    rw [heq.1, heq.2]
  case h_2 heq =>
    rw [h] at heq
    cases heq

theorem citeLabels_cons_none {c : Char} {cs : List Char}
    (h : tryCite (c :: cs) = none) :
    citeLabels (c :: cs) = citeLabels cs := by
  simp only [citeLabels]
  split
  case h_1 label2 rest2 heq =>
    rw [h] at heq
    cases heq
  case h_2 heq => rfl

theorem isDig_ne_star {c : Char} (h : isDig c = true) : ¬(c = '*') := by
  intro he
  subst he
  exact absurd h (by decide)

theorem tryCite_of_form {label z : List Char} (hs : labelShape label) :
    tryCite ('(' :: label ++ ')' :: z) = some (label, z) := by
  rcases hs with ⟨a, m1, m2, s1, s2, rfl, ha, hm1, hm2, hs1, hs2⟩ |
    ⟨a, b, m1, m2, s1, s2, rfl, ha, hb, hm1, hm2, hs1, hs2⟩
  · show tryCite ('(' :: a :: ':' :: (m1 :: m2 :: ':' :: s1 :: s2 :: ')' :: z)) = _
    simp only [tryCite]
    rw [if_pos (by simp [ha])]
    rw [if_neg (by decide : ¬(isDig ':' = true))]
    simp only [tryCite1]
    rw [if_pos (by simp [hm1, hm2, hs1, hs2])]
  · show tryCite ('(' :: a :: b :: (':' :: m1 :: m2 :: ':' :: s1 :: s2 :: ')' :: z)) = _
    simp only [tryCite]
    rw [if_pos (by simp [ha]), if_pos hb]
    have hct : citeTail2 a b (':' :: m1 :: m2 :: ':' :: s1 :: s2 :: ')' :: z) =
        some ([a, b, ':', m1, m2, ':', s1, s2], z) := by
      simp only [citeTail2]
      rw [if_pos (by simp [hm1, hm2, hs1, hs2])]
    rw [hct]

theorem tryCite_none_of_head {c : Char} {cs : List Char} (h : ¬(c = '(')) :
    tryCite (c :: cs) = none := by
  cases cs with
  | nil => simp [tryCite]
  | cons d1 cs1 =>
    cases cs1 with
    | nil => simp [tryCite]
    | cons d2 cs2 =>
      simp only [tryCite]
      rw [if_neg (by simp [h])]

theorem labelShape_citeChar {label : List Char} (hs : labelShape label) :
    ∀ c ∈ '(' :: label ++ [')'], citeChar c = true := by
  have hd : ∀ x : Char, isDig x = true → citeChar x = true := by
    intro x h
    simp [citeChar, h]
  intro c hc
  rcases hs with ⟨a, m1, m2, s1, s2, rfl, ha, hm1, hm2, hs1, hs2⟩ |
    ⟨a, b, m1, m2, s1, s2, rfl, ha, hb, hm1, hm2, hs1, hs2⟩
  · simp at hc
    rcases hc with rfl | rfl | rfl | rfl | rfl | rfl | rfl | rfl | rfl
    · decide
    · exact hd c ha
    · decide
    · exact hd c hm1
    · exact hd c hm2
    · decide
    · exact hd c hs1
    · exact hd c hs2
    · decide
  · simp at hc
    rcases hc with rfl | rfl | rfl | rfl | rfl | rfl | rfl | rfl | rfl | rfl
    · decide
    · exact hd c ha
    · exact hd c hb
    · decide
    · exact hd c hm1
    · exact hd c hm2
    · decide
    · exact hd c hs1
    · exact hd c hs2
    · decide

theorem labelShape_no_star {label : List Char} (hs : labelShape label) :
    ∀ c ∈ '(' :: label ++ [')'], ¬(c = '*') := by
  intro c hc he
  subst he
  have := labelShape_citeChar hs '*' hc
  exact absurd this (by decide)

theorem replaceBold_nil : replaceBold [] = [] := by
  simp [replaceBold]

theorem replaceItalic_nil : replaceItalic [] = [] := by
  simp [replaceItalic]

theorem replaceBold_one (c : Char) : replaceBold [c] = [c] := by
  simp [replaceBold]

theorem replaceBold_copy {c c2 : Char} {rest : List Char}
    (h : ¬(c = '*' ∧ c2 = '*')) :
    replaceBold (c :: c2 :: rest) = c :: replaceBold (c2 :: rest) := by
  simp only [replaceBold]
  rw [if_neg (by simp only [Bool.and_eq_true, decide_eq_true_eq]; exact h)]

theorem replaceBold_star_copy {rest : List Char}
    (h : ¬((rest.takeWhile (fun x => !(x = '*'))).isEmpty = false ∧
      litAt ['*', '*'] (rest.dropWhile (fun x => !(x = '*'))) = true)) :
    replaceBold ('*' :: '*' :: rest) = '*' :: replaceBold ('*' :: rest) := by
  simp only [replaceBold]
  rw [if_pos (by decide)]
  by_cases h1 : (rest.takeWhile (fun x => !(x = '*'))).isEmpty = true
  · rw [if_pos h1]
  · rw [if_neg h1]
    rw [if_neg (by
      intro h2
      exact h ⟨by revert h1; cases (rest.takeWhile (fun x => !(x = '*'))).isEmpty <;> simp, h2⟩)]

theorem replaceBold_match {rest : List Char}
    (h1 : (rest.takeWhile (fun x => !(x = '*'))).isEmpty = false)
    (h2 : litAt ['*', '*'] (rest.dropWhile (fun x => !(x = '*'))) = true) :
    replaceBold ('*' :: '*' :: rest) =
      boldOpen ++ rest.takeWhile (fun x => !(x = '*')) ++ boldClose ++
        replaceBold ((rest.dropWhile (fun x => !(x = '*'))).drop 2) := by
  simp only [replaceBold]
  rw [if_pos (by decide), if_neg (by simp [h1]), if_pos h2]

theorem replaceItalic_copy {c : Char} {cs : List Char} (h : ¬(c = '*')) :
    replaceItalic (c :: cs) = c :: replaceItalic cs := by
  simp only [replaceItalic]
  rw [if_neg h]

theorem replaceItalic_star_copy {cs : List Char}
    (h : ¬((cs.takeWhile (fun x => !(x = '*'))).isEmpty = false ∧
      litAt ['*'] (cs.dropWhile (fun x => !(x = '*'))) = true)) :
    replaceItalic ('*' :: cs) = '*' :: replaceItalic cs := by
  simp only [replaceItalic, if_true]
  by_cases h1 : (cs.takeWhile (fun x => !(x = '*'))).isEmpty = true
  · rw [if_pos h1]
  · rw [if_neg h1]
    rw [if_neg (by
      intro h2
      exact h ⟨by revert h1; cases (cs.takeWhile (fun x => !(x = '*'))).isEmpty <;> simp, h2⟩)]

theorem replaceItalic_match {cs : List Char}
    (h1 : (cs.takeWhile (fun x => !(x = '*'))).isEmpty = false)
    (h2 : litAt ['*'] (cs.dropWhile (fun x => !(x = '*'))) = true) :
    replaceItalic ('*' :: cs) =
      emOpen ++ cs.takeWhile (fun x => !(x = '*')) ++ emClose ++
        replaceItalic ((cs.dropWhile (fun x => !(x = '*'))).drop 1) := by
  simp only [replaceItalic, if_true]
  rw [if_neg (by simp [h1]), if_pos h2]

theorem replaceBold_append {m : List Char} :
    ∀ rest : List Char, (∀ c ∈ m, ¬(c = '*')) →
      replaceBold (m ++ rest) = m ++ replaceBold rest := by
  induction m with
  | nil => intro rest _; rfl
  | cons c m2 ih =>
    intro rest hm
    rw [List.cons_append]
    cases hmr : m2 ++ rest with
    | nil =>
      obtain ⟨hm2, hrest⟩ := List.append_eq_nil.1 hmr
      subst hm2
      subst hrest
      rw [replaceBold_one, replaceBold_nil]
      simp
    | cons y z =>
      rw [replaceBold_copy (by intro hpair; exact hm c (by simp) hpair.1), ← hmr,
        ih rest (fun x hx => hm x (List.mem_cons_of_mem _ hx))]
      simp

theorem replaceItalic_append {m : List Char} :
    ∀ rest : List Char, (∀ c ∈ m, ¬(c = '*')) →
      replaceItalic (m ++ rest) = m ++ replaceItalic rest := by
  induction m with
  | nil => intro rest _; rfl
  | cons c m2 ih =>
    intro rest hm
    rw [List.cons_append, replaceItalic_copy (hm c (by simp)),
      ih rest (fun x hx => hm x (List.mem_cons_of_mem _ hx))]
    simp

theorem replaceItalic_star_head (X : List Char) :
    ∃ h t2, replaceItalic ('*' :: X) = h :: t2 ∧ citeChar h = false := by
  by_cases h1 : (X.takeWhile (fun x => !(x = '*'))).isEmpty = true
  · rw [replaceItalic_star_copy (by intro hp; rw [hp.1] at h1; cases h1)]
    exact ⟨'*', _, rfl, by decide⟩
  · have h1f : (X.takeWhile (fun x => !(x = '*'))).isEmpty = false := by
      revert h1; cases (X.takeWhile (fun x => !(x = '*'))).isEmpty <;> simp
    by_cases h2 : litAt ['*'] (X.dropWhile (fun x => !(x = '*'))) = true
    · rw [replaceItalic_match h1f h2]
      obtain ⟨E, hE⟩ : ∃ E, emOpen = '<' :: E := ⟨emOpen.drop 1, by decide⟩
      rw [hE]
      simp only [List.cons_append, List.append_assoc]
      exact ⟨'<', _, rfl, by decide⟩
    · rw [replaceItalic_star_copy (by intro hp; exact h2 hp.2)]
      exact ⟨'*', _, rfl, by decide⟩

theorem replaceBold_star_head (X : List Char) :
    ∃ h t2, replaceBold ('*' :: X) = h :: t2 ∧ citeChar h = false := by
  cases X with
  | nil => exact ⟨'*', [], replaceBold_one '*', by decide⟩
  | cons c2 rest =>
    by_cases hc2 : c2 = '*'
    · subst hc2
      by_cases h1 : (rest.takeWhile (fun x => !(x = '*'))).isEmpty = true
      · rw [replaceBold_star_copy (by intro hp; rw [hp.1] at h1; cases h1)]
        exact ⟨'*', _, rfl, by decide⟩
      · have h1f : (rest.takeWhile (fun x => !(x = '*'))).isEmpty = false := by
          revert h1; cases (rest.takeWhile (fun x => !(x = '*'))).isEmpty <;> simp
        by_cases h2 : litAt ['*', '*'] (rest.dropWhile (fun x => !(x = '*'))) = true
        · rw [replaceBold_match h1f h2]
          obtain ⟨B, hB⟩ : ∃ B, boldOpen = '<' :: B := ⟨boldOpen.drop 1, by decide⟩
          rw [hB]
          simp only [List.cons_append, List.append_assoc]
          exact ⟨'<', _, rfl, by decide⟩
        · rw [replaceBold_star_copy (by intro hp; exact h2 hp.2)]
          exact ⟨'*', _, rfl, by decide⟩
    · rw [replaceBold_copy (by intro hp; exact hc2 hp.2)]
      exact ⟨'*', _, rfl, by decide⟩

/-- A markdown pass that copies star-free prefixes and starts its output
with a non-citation character at a star cannot create a citation match at
a position where the input had none. -/
theorem tryCite_transfer (P : List Char → List Char)
    (hP : ∀ m rest, (∀ x ∈ m, ¬(x = '*')) → P (m ++ rest) = m ++ P rest)
    (hPnil : P [] = [])
    (hPh : ∀ X, ∃ h0 t3, P ('*' :: X) = h0 :: t3 ∧ citeChar h0 = false)
    {c : Char} {cs : List Char} (hnone : tryCite (c :: cs) = none) :
    tryCite (c :: P cs) = none := by
  cases hx : tryCite (c :: P cs) with
  | none => rfl
  | some pr =>
    exfalso
    obtain ⟨label, r2⟩ := pr
    obtain ⟨heq, hshape⟩ := tryCite_decomp hx
    simp only [List.cons_append, List.cons.injEq] at heq
    obtain ⟨hc, hPcs⟩ := heq
    obtain ⟨w, t2, hwt, hw, ht2⟩ : ∃ w t2, cs = w ++ t2 ∧ (∀ x ∈ w, ¬(x = '*')) ∧
        (t2 = [] ∨ ∃ X, t2 = '*' :: X) := by
      refine ⟨cs.takeWhile (fun x => !(x = '*')), cs.dropWhile (fun x => !(x = '*')),
        (List.takeWhile_append_dropWhile _ _).symm, ?_, ?_⟩
      · intro x hx2
        have h3 := List.mem_takeWhile_imp hx2
        simpa using h3
      · cases hd : cs.dropWhile (fun x => !(x = '*')) with
        | nil => exact Or.inl rfl
        | cons d X =>
          refine Or.inr ⟨X, ?_⟩
          have hdneg := dropWhile_head_neg hd
          simp only [Bool.not_eq_false', decide_eq_true_eq] at hdneg
          rw [hdneg]
    have hPw : P cs = w ++ P t2 := by
      rw [hwt]
      exact hP w t2 hw
    rw [hPw] at hPcs
    have hPcs2 : w ++ P t2 = (label ++ [')']) ++ r2 := by
      rw [hPcs]
      simp
    by_cases hle : label.length + 1 ≤ w.length
    · rcases List.append_eq_append_iff.1 hPcs2 with ⟨a2, hA, hB⟩ | ⟨c2, hA, hB⟩
      · have hlen := congrArg List.length hA
        simp only [List.length_append, List.length_singleton] at hlen
        have ha2 : a2 = [] := List.eq_nil_of_length_eq_zero (by omega)
        subst ha2
        rw [List.append_nil] at hA
        have hsome : tryCite (c :: cs) = some (label, t2) := by
          rw [hc, hwt, ← hA]
          have e : (label ++ [')']) ++ t2 = label ++ ')' :: t2 := by simp
          rw [e]
          exact tryCite_of_form hshape
        rw [hsome] at hnone
        cases hnone
      · have hsome : tryCite (c :: cs) = some (label, c2 ++ t2) := by
          rw [hc, hwt, hA]
          have e : ((label ++ [')']) ++ c2) ++ t2 = label ++ ')' :: (c2 ++ t2) := by simp
          rw [e]
          exact tryCite_of_form hshape
        rw [hsome] at hnone
        cases hnone
    · have hlt : w.length < label.length + 1 := by omega
      have hlenP : w.length < (label ++ [')']).length := by
        simp only [List.length_append, List.length_singleton]
        omega
      have hlen2 := congrArg List.length hPcs2
      simp only [List.length_append, List.length_singleton] at hlen2
      have hPt2ne : P t2 ≠ [] := by
        intro hnil
        rw [hnil] at hlen2
        simp only [List.length_nil] at hlen2
        omega
      rcases ht2 with rfl | ⟨X, rfl⟩
      · exact hPt2ne hPnil
      · obtain ⟨h0, t3, hPt2, hcc⟩ := hPh X
        have hg := congrArg (fun l : List Char => l.get? w.length) hPcs2
        simp only at hg
        rw [List.get?_append_right (Nat.le_refl _), Nat.sub_self, hPt2] at hg
        rw [List.get?_append hlenP] at hg
        have hmem : h0 ∈ label ++ [')'] := List.get?_mem hg.symm
        have hcc2 : citeChar h0 = true :=
          labelShape_citeChar hshape h0 (List.mem_cons_of_mem _ hmem)
        rw [hcc] at hcc2
        cases hcc2

theorem citeLabels_skip : ∀ a z : List Char, (∀ c ∈ a, ¬(c = '(')) →
    citeLabels (a ++ z) = citeLabels z := by
  intro a
  induction a with
  | nil => intro z _; rfl
  | cons x a2 ih =>
    intro z ha
    rw [List.cons_append, citeLabels_cons_none (tryCite_none_of_head (ha x (by simp)))]
    exact ih z (fun c hc => ha c (List.mem_cons_of_mem _ hc))

/-- Citation scanning distributes over an append whose right part starts
with a character no citation can contain. -/
theorem citeLabels_boundary : ∀ (X : List Char) (h0 : Char) (t2 : List Char),
    citeChar h0 = false →
    citeLabels (X ++ h0 :: t2) = citeLabels X ++ citeLabels (h0 :: t2)
  | [], h0, t2, _ => by
    rw [List.nil_append, citeLabels_nil, List.nil_append]
  | c :: X2, h0, t2, hcc => by
    rw [List.cons_append]
    cases htc : tryCite (c :: (X2 ++ h0 :: t2)) with
    | some pr =>
      obtain ⟨label, r⟩ := pr
      obtain ⟨heq, hshape⟩ := tryCite_decomp htc
      simp only [List.cons_append, List.cons.injEq] at heq
      obtain ⟨hc, htail⟩ := heq
      have htail2 : X2 ++ h0 :: t2 = (label ++ [')']) ++ r := by
        rw [htail]
        simp
      by_cases hle : label.length + 1 ≤ X2.length
      · rcases List.append_eq_append_iff.1 htail2 with ⟨a2, hA, hB⟩ | ⟨Y2, hA, hB⟩
        · have hlen := congrArg List.length hA
          simp only [List.length_append, List.length_singleton] at hlen
          have ha2 : a2 = [] := List.eq_nil_of_length_eq_zero (by omega)
          subst ha2
          rw [List.append_nil] at hA
          rw [List.nil_append] at hB
          -- X2 = label ++ [')'], r = h0 :: t2
          rw [citeLabels_cons_some htc, hB]
          have hX : tryCite (c :: X2) = some (label, []) := by
            rw [hc, ← hA]
            have e : (label ++ [')']) = label ++ ')' :: ([] : List Char) := by simp
            rw [e]
            exact tryCite_of_form hshape
          rw [citeLabels_cons_some hX, citeLabels_nil]
          simp
        · -- hA : X2 = (label ++ [')']) ++ Y2, hB : r = Y2 ++ h0 :: t2
          have hltY : Y2.length < X2.length := by
            have hlen := congrArg List.length hA
            simp only [List.length_append, List.length_singleton] at hlen
            omega
          rw [citeLabels_cons_some htc, hB]
          have hX : tryCite (c :: X2) = some (label, Y2) := by
            rw [hc, hA]
            have e : (label ++ [')']) ++ Y2 = label ++ ')' :: Y2 := by simp
            rw [e]
            exact tryCite_of_form hshape
          rw [citeLabels_cons_some hX]
          rw [citeLabels_boundary Y2 h0 t2 hcc]
          simp
      · exfalso
        have hlenP : X2.length < (label ++ [')']).length := by
          simp only [List.length_append, List.length_singleton]
          omega
        have hg := congrArg (fun l : List Char => l.get? X2.length) htail2
        simp only at hg
        rw [List.get?_append_right (Nat.le_refl _), Nat.sub_self] at hg
        rw [List.get?_append hlenP] at hg
        have hmem : h0 ∈ label ++ [')'] := List.get?_mem hg.symm
        have hcc2 : citeChar h0 = true :=
          labelShape_citeChar hshape h0 (List.mem_cons_of_mem _ hmem)
        rw [hcc] at hcc2
        cases hcc2
    | none =>
      rw [citeLabels_cons_none htc]
      have htc2 : tryCite (c :: X2) = none := by
        cases hx : tryCite (c :: X2) with
        | none => rfl
        | some pr =>
          exfalso
          obtain ⟨label, Y2⟩ := pr
          obtain ⟨heq2, hsh⟩ := tryCite_decomp hx
          have hsome : tryCite (c :: (X2 ++ h0 :: t2)) = some (label, Y2 ++ h0 :: t2) := by
            have e : c :: (X2 ++ h0 :: t2) = '(' :: label ++ ')' :: (Y2 ++ h0 :: t2) := by
              rw [show c :: (X2 ++ h0 :: t2) = (c :: X2) ++ h0 :: t2 from rfl, heq2]
              simp
            rw [e]
            exact tryCite_of_form hsh
          rw [hsome] at htc
          cases htc
      rw [citeLabels_cons_none htc2]
      exact citeLabels_boundary X2 h0 t2 hcc
termination_by X _ _ _ => X.length
decreasing_by
  · simp only [List.length_cons]
    omega
  · simp only [List.length_cons]
    omega

/-- Italic replacement neither destroys nor creates `(H:MM:SS)` citations. -/
theorem citeLabels_replaceItalic : ∀ t : List Char,
    citeLabels (replaceItalic t) = citeLabels t
  | [] => by rw [replaceItalic_nil]
  | c :: cs => by
    cases htc : tryCite (c :: cs) with
    | some pr =>
      obtain ⟨label, rest⟩ := pr
      obtain ⟨heq, hshape⟩ := tryCite_decomp htc
      have hm : c :: cs = ('(' :: label ++ [')']) ++ rest := by
        rw [heq]
        simp
      have hltr : rest.length < cs.length + 1 := by
        have hlen := congrArg List.length hm
        simp only [List.length_cons, List.length_append, List.length_singleton] at hlen
        omega
      have hPm : replaceItalic (c :: cs) =
          ('(' :: label ++ [')']) ++ replaceItalic rest := by
        rw [hm]
        exact replaceItalic_append rest (labelShape_no_star hshape)
      rw [hPm]
      have e : ('(' :: label ++ [')']) ++ replaceItalic rest =
          '(' :: (label ++ ')' :: replaceItalic rest) := by simp
      have hOf : tryCite ('(' :: (label ++ ')' :: replaceItalic rest)) =
          some (label, replaceItalic rest) := tryCite_of_form hshape
      rw [e, citeLabels_cons_some hOf, citeLabels_cons_some htc,
        citeLabels_replaceItalic rest]
    | none =>
      by_cases hc : c = '*'
      · subst hc
        by_cases h1 : (cs.takeWhile (fun x => !(x = '*'))).isEmpty = true
        · rw [replaceItalic_star_copy (fun hp => by rw [hp.1] at h1; cases h1),
            citeLabels_cons_none (tryCite_none_of_head (by decide)),
            citeLabels_cons_none htc]
          exact citeLabels_replaceItalic cs
        · have h1f : (cs.takeWhile (fun x => !(x = '*'))).isEmpty = false := by
            revert h1
            cases (cs.takeWhile (fun x => !(x = '*'))).isEmpty <;> simp
          by_cases h2 : litAt ['*'] (cs.dropWhile (fun x => !(x = '*'))) = true
          · obtain ⟨rest2, hD⟩ : ∃ rest2,
                cs.dropWhile (fun x => !(x = '*')) = '*' :: rest2 := by
              cases hd : cs.dropWhile (fun x => !(x = '*')) with
              | nil =>
                rw [hd] at h2
                exact absurd h2 (by decide)
              | cons d ds =>
                rw [hd] at h2
                simp only [litAt, Bool.and_eq_true, decide_eq_true_eq] at h2
                exact ⟨ds, by rw [← h2.1]⟩
            have hdrop : (cs.dropWhile (fun x => !(x = '*'))).drop 1 = rest2 := by
              rw [hD]
              rfl
            have hcs : cs = cs.takeWhile (fun x => !(x = '*')) ++ '*' :: rest2 := by
              conv_lhs => rw [← List.takeWhile_append_dropWhile (fun x => !(x = '*')) cs]
              rw [hD]
            have hltr : rest2.length < cs.length + 1 := by
              have h3 := length_dropWhile_le (fun x => !(x = '*')) cs
              rw [hD] at h3
              simp only [List.length_cons] at h3
              omega
            rw [replaceItalic_match h1f h2, hdrop]
            simp only [List.append_assoc]
            rw [citeLabels_skip emOpen _ (by decide)]
            rw [show emClose = '<' :: ("/em>").toList from by decide, List.cons_append]
            rw [citeLabels_boundary _ '<' _ (by decide),
              citeLabels_cons_none (tryCite_none_of_head (by decide)),
              citeLabels_skip (("/em>").toList) _ (by decide),
              citeLabels_replaceItalic rest2]
            rw [citeLabels_cons_none htc]
            conv_rhs => rw [hcs]
            rw [citeLabels_boundary _ '*' _ (by decide),
              citeLabels_cons_none (tryCite_none_of_head (by decide))]
          · rw [replaceItalic_star_copy (fun hp => h2 hp.2),
              citeLabels_cons_none (tryCite_none_of_head (by decide)),
              citeLabels_cons_none htc]
            exact citeLabels_replaceItalic cs
      · rw [replaceItalic_copy hc]
        have htcP := tryCite_transfer replaceItalic
          (fun m r hm => replaceItalic_append r hm) replaceItalic_nil
          replaceItalic_star_head htc
        rw [citeLabels_cons_none htcP, citeLabels_cons_none htc]
        exact citeLabels_replaceItalic cs
termination_by t => t.length
decreasing_by
  all_goals (simp only [List.length_cons]; omega)

/-- Bold replacement neither destroys nor creates `(H:MM:SS)` citations. -/
theorem citeLabels_replaceBold : ∀ t : List Char,
    citeLabels (replaceBold t) = citeLabels t
  | [] => by rw [replaceBold_nil]
  | [c] => by rw [replaceBold_one]
  | c :: c2 :: rest => by
    cases htc : tryCite (c :: c2 :: rest) with
    | some pr =>
      obtain ⟨label, rest1⟩ := pr
      obtain ⟨heq, hshape⟩ := tryCite_decomp htc
      have hm : c :: c2 :: rest = ('(' :: label ++ [')']) ++ rest1 := by
        rw [heq]
        simp
      have hltr : rest1.length < rest.length + 1 + 1 := by
        have hlen := congrArg List.length hm
        simp only [List.length_cons, List.length_append, List.length_singleton] at hlen
        omega
      have hPm : replaceBold (c :: c2 :: rest) =
          ('(' :: label ++ [')']) ++ replaceBold rest1 := by
        rw [hm]
        exact replaceBold_append rest1 (labelShape_no_star hshape)
      rw [hPm]
      have e : ('(' :: label ++ [')']) ++ replaceBold rest1 =
          '(' :: (label ++ ')' :: replaceBold rest1) := by simp
      have hOf : tryCite ('(' :: (label ++ ')' :: replaceBold rest1)) =
          some (label, replaceBold rest1) := tryCite_of_form hshape
      rw [e, citeLabels_cons_some hOf, citeLabels_cons_some htc,
        citeLabels_replaceBold rest1]
    | none =>
      by_cases hp : c = '*' ∧ c2 = '*'
      · obtain ⟨rfl, rfl⟩ := hp
        by_cases h1 : (rest.takeWhile (fun x => !(x = '*'))).isEmpty = true
        · rw [replaceBold_star_copy (fun hq => by rw [hq.1] at h1; cases h1),
            citeLabels_cons_none (tryCite_none_of_head (by decide)),
            citeLabels_cons_none htc]
          exact citeLabels_replaceBold ('*' :: rest)
        · have h1f : (rest.takeWhile (fun x => !(x = '*'))).isEmpty = false := by
            revert h1
            cases (rest.takeWhile (fun x => !(x = '*'))).isEmpty <;> simp
          by_cases h2 : litAt ['*', '*'] (rest.dropWhile (fun x => !(x = '*'))) = true
          · obtain ⟨rest2, hD⟩ : ∃ rest2,
                rest.dropWhile (fun x => !(x = '*')) = '*' :: '*' :: rest2 := by
              cases hd : rest.dropWhile (fun x => !(x = '*')) with
              | nil =>
                rw [hd] at h2
                exact absurd h2 (by decide)
              | cons d ds =>
                cases ds with
                | nil =>
                  rw [hd] at h2
                  simp [litAt] at h2
                | cons d2 ds2 =>
                  rw [hd] at h2
                  simp only [litAt, Bool.and_eq_true, decide_eq_true_eq] at h2
                  exact ⟨ds2, by rw [← h2.1, ← h2.2.1]⟩
            have hdrop : (rest.dropWhile (fun x => !(x = '*'))).drop 2 = rest2 := by
              rw [hD]
              rfl
            have hcs : rest = rest.takeWhile (fun x => !(x = '*')) ++ '*' :: '*' :: rest2 := by
              conv_lhs => rw [← List.takeWhile_append_dropWhile (fun x => !(x = '*')) rest]
              rw [hD]
            have hltr : rest2.length < rest.length + 1 + 1 := by
              have h3 := length_dropWhile_le (fun x => !(x = '*')) rest
              rw [hD] at h3
              simp only [List.length_cons] at h3
              omega
            rw [replaceBold_match h1f h2, hdrop]
            simp only [List.append_assoc]
            rw [citeLabels_skip boldOpen _ (by decide)]
            rw [show boldClose = '<' :: ("/strong>").toList from by decide, List.cons_append]
            rw [citeLabels_boundary _ '<' _ (by decide),
              citeLabels_cons_none (tryCite_none_of_head (by decide)),
              citeLabels_skip (("/strong>").toList) _ (by decide),
              citeLabels_replaceBold rest2]
            rw [citeLabels_cons_none htc,
              citeLabels_cons_none (tryCite_none_of_head (by decide))]
            conv_rhs => rw [hcs]
            rw [citeLabels_boundary _ '*' _ (by decide),
              citeLabels_cons_none (tryCite_none_of_head (by decide)),
              citeLabels_cons_none (tryCite_none_of_head (by decide))]
          · rw [replaceBold_star_copy (fun hq => h2 hq.2),
              citeLabels_cons_none (tryCite_none_of_head (by decide)),
              citeLabels_cons_none htc]
            exact citeLabels_replaceBold ('*' :: rest)
      · rw [replaceBold_copy hp]
        have htcP := tryCite_transfer replaceBold
          (fun m r hm => replaceBold_append r hm) replaceBold_nil
          replaceBold_star_head htc
        rw [citeLabels_cons_none htcP, citeLabels_cons_none htc]
        exact citeLabels_replaceBold (c2 :: rest)
termination_by t => t.length
decreasing_by
  all_goals (simp only [List.length_cons]; omega)

theorem litAt_append_over : ∀ {A pat B : List Char}, litAt pat (A ++ B) = true →
    A.length < pat.length → litAt (pat.drop A.length) B = true := by
  intro A
  induction A with
  | nil =>
    intro pat B h _
    simpa using h
  | cons a A2 ih =>
    intro pat B h hlen
    cases pat with
    | nil => simp at hlen
    | cons p pat2 =>
      rw [List.cons_append] at h
      simp only [litAt, Bool.and_eq_true, decide_eq_true_eq] at h
      have h2 := ih h.2 (by simp only [List.length_cons] at hlen ⊢; omega)
      rw [List.length_cons, List.drop_succ_cons]
      exact h2

theorem hasSub_append_right {pat B : List Char} :
    ∀ A : List Char, hasSub pat B = true → hasSub pat (A ++ B) = true := by
  intro A
  induction A with
  | nil => intro h; simpa using h
  | cons a A2 ih =>
    intro h
    rw [List.cons_append]
    cases hB : A2 ++ B with
    | nil =>
      rw [hB] at ih
      simp only [hasSub, Bool.or_eq_true]
      right
      exact ih h
    | cons y z =>
      rw [← hB]
      simp only [hasSub, Bool.or_eq_true]
      right
      exact ih h

theorem hasSub_append_split {pat : List Char} :
    ∀ {A B : List Char}, hasSub pat (A ++ B) = true →
      hasSub pat B = true ∨ ∃ k, k < A.length ∧ litAt pat (A.drop k ++ B) = true := by
  intro A
  induction A with
  | nil =>
    intro B h
    exact Or.inl (by simpa using h)
  | cons a A2 ih =>
    intro B h
    rw [List.cons_append] at h
    simp only [hasSub, Bool.or_eq_true] at h
    rcases h with hlit | hrest
    · exact Or.inr ⟨0, by simp, by rw [List.drop_zero, List.cons_append]; exact hlit⟩
    · rcases ih hrest with hB | ⟨k, hk, hl⟩
      · exact Or.inl hB
      · exact Or.inr ⟨k + 1, by simp only [List.length_cons]; omega,
          by rw [List.drop_succ_cons]; exact hl⟩

theorem hasSub_of_litAt {pat s : List Char} (h : litAt pat s = true) (hne : pat ≠ []) :
    hasSub pat s = true := by
  cases s with
  | nil =>
    cases pat with
    | nil => exact absurd rfl hne
    | cons p ps => exact absurd h (by simp [litAt])
  | cons c cs =>
    simp only [hasSub, Bool.or_eq_true]
    exact Or.inl h

theorem phOpen_drop_failsEarly : ∀ j, j < 36 → 0 < j →
    litFailsEarly (phOpen.drop j) (('<') :: []) = true := by
  decide

theorem emOpen_failsEarly : ∀ k, k < 24 → litFailsEarly phOpen (emOpen.drop k) = true := by
  decide

theorem emClose_failsEarly : ∀ k, k < 5 → litFailsEarly phOpen (emClose.drop k) = true := by
  decide

theorem boldOpen_failsEarly : ∀ k, k < 26 →
    litFailsEarly phOpen (boldOpen.drop k) = true := by
  decide

theorem boldClose_failsEarly : ∀ k, k < 9 →
    litFailsEarly phOpen (boldClose.drop k) = true := by
  decide

theorem M_copy {c : Char} {cs pcs : List Char} {j : Nat} (hjlt : j < 36)
    (hlit : litAt (phOpen.drop j) (c :: pcs) = true)
    (hrec : litAt (phOpen.drop (j + 1)) pcs = true →
      litAt (phOpen.drop (j + 1)) cs = true) :
    litAt (phOpen.drop j) (c :: cs) = true := by
  have hjlen : j < phOpen.length := by
    have h36 : phOpen.length = 36 := by decide
    omega
  rw [List.drop_eq_getElem_cons hjlen] at hlit ⊢
  simp only [litAt, Bool.and_eq_true, decide_eq_true_eq] at hlit ⊢
  exact ⟨hlit.1, hrec hlit.2⟩

/-- Italic replacement only starts suffixes of the placeholder literal
where the input already had them. -/
theorem replaceItalic_M : ∀ (t : List Char) (j : Nat), 0 < j → j ≤ 36 →
    litAt (phOpen.drop j) (replaceItalic t) = true →
    litAt (phOpen.drop j) t = true
  | [], j, _, _, hlit => by
    rw [replaceItalic_nil] at hlit
    exact hlit
  | c :: cs, j, hj1, hj2, hlit => by
    by_cases hj36 : j = 36
    · subst hj36
      rw [show phOpen.drop 36 = [] from by decide]
      rfl
    · have hjlt : j < 36 := by omega
      have hrec := replaceItalic_M cs (j + 1) (by omega) (by omega)
      by_cases hc : c = '*'
      · subst hc
        by_cases h1 : (cs.takeWhile (fun x => !(x = '*'))).isEmpty = true
        · rw [replaceItalic_star_copy (fun hp => by rw [hp.1] at h1; cases h1)] at hlit
          exact M_copy hjlt hlit hrec
        · have h1f : (cs.takeWhile (fun x => !(x = '*'))).isEmpty = false := by
            revert h1
            cases (cs.takeWhile (fun x => !(x = '*'))).isEmpty <;> simp
          by_cases h2 : litAt ['*'] (cs.dropWhile (fun x => !(x = '*'))) = true
          · exfalso
            rw [replaceItalic_match h1f h2] at hlit
            simp only [List.append_assoc] at hlit
            rw [show emOpen = '<' :: ("em class=\"italic-text\">").toList from by decide,
              List.cons_append] at hlit
            have hfe := phOpen_drop_failsEarly j hjlt hj1
            have hfalse : litAt (phOpen.drop j)
                ('<' :: (("em class=\"italic-text\">").toList ++
                  (cs.takeWhile (fun x => !(x = '*')) ++ (emClose ++
                    replaceItalic ((cs.dropWhile (fun x => !(x = '*'))).drop 1))))) =
                  false :=
              litAt_eq_false_of_failsEarly hfe _
            rw [hlit] at hfalse
            cases hfalse
          · rw [replaceItalic_star_copy (fun hp => h2 hp.2)] at hlit
            exact M_copy hjlt hlit hrec
      · rw [replaceItalic_copy hc] at hlit
        exact M_copy hjlt hlit hrec

/-- Bold replacement only starts suffixes of the placeholder literal where
the input already had them. -/
theorem replaceBold_M : ∀ (t : List Char) (j : Nat), 0 < j → j ≤ 36 →
    litAt (phOpen.drop j) (replaceBold t) = true →
    litAt (phOpen.drop j) t = true
  | [], j, _, _, hlit => by
    rw [replaceBold_nil] at hlit
    exact hlit
  | [c], j, _, _, hlit => by
    rw [replaceBold_one] at hlit
    exact hlit
  | c :: c2 :: rest, j, hj1, hj2, hlit => by
    by_cases hj36 : j = 36
    · subst hj36
      rw [show phOpen.drop 36 = [] from by decide]
      rfl
    · have hjlt : j < 36 := by omega
      by_cases hp : c = '*' ∧ c2 = '*'
      · obtain ⟨rfl, rfl⟩ := hp
        have hrec := replaceBold_M ('*' :: rest) (j + 1) (by omega) (by omega)
        by_cases h1 : (rest.takeWhile (fun x => !(x = '*'))).isEmpty = true
        · rw [replaceBold_star_copy (fun hq => by rw [hq.1] at h1; cases h1)] at hlit
          exact M_copy hjlt hlit hrec
        · have h1f : (rest.takeWhile (fun x => !(x = '*'))).isEmpty = false := by
            revert h1
            cases (rest.takeWhile (fun x => !(x = '*'))).isEmpty <;> simp
          by_cases h2 : litAt ['*', '*'] (rest.dropWhile (fun x => !(x = '*'))) = true
          · exfalso
            rw [replaceBold_match h1f h2] at hlit
            simp only [List.append_assoc] at hlit
            rw [show boldOpen = '<' :: ("strong class=\"bold-text\">").toList from by decide,
              List.cons_append] at hlit
            have hfe := phOpen_drop_failsEarly j hjlt hj1
            have hfalse : litAt (phOpen.drop j)
                ('<' :: (("strong class=\"bold-text\">").toList ++
                  (rest.takeWhile (fun x => !(x = '*')) ++ (boldClose ++
                    replaceBold ((rest.dropWhile (fun x => !(x = '*'))).drop 2))))) =
                  false :=
              litAt_eq_false_of_failsEarly hfe _
            rw [hlit] at hfalse
            cases hfalse
          · rw [replaceBold_star_copy (fun hq => h2 hq.2)] at hlit
            exact M_copy hjlt hlit hrec
      · rw [replaceBold_copy hp] at hlit
        exact M_copy hjlt hlit (replaceBold_M (c2 :: rest) (j + 1) (by omega) (by omega))
termination_by t _ _ _ _ => t.length
decreasing_by
  all_goals (simp only [List.length_cons]; omega)

theorem hasSub_copy_step {c : Char} {cs pcs : List Char}
    (hM : litAt (phOpen.drop 1) pcs = true → litAt (phOpen.drop 1) cs = true)
    (hIH : hasSub phOpen pcs = true → hasSub phOpen cs = true)
    (hsub : hasSub phOpen (c :: pcs) = true) :
    hasSub phOpen (c :: cs) = true := by
  simp only [hasSub, Bool.or_eq_true] at hsub ⊢
  rcases hsub with hlit | hrest
  · left
    obtain ⟨T, hOpen⟩ : ∃ T, phOpen = '<' :: T := ⟨phOpen.drop 1, by decide⟩
    have hT : T = phOpen.drop 1 := by
      rw [List.drop_one]
      exact (by simpa using congrArg List.tail hOpen : phOpen.tail = T).symm
    rw [hOpen] at hlit ⊢
    simp only [litAt, Bool.and_eq_true, decide_eq_true_eq] at hlit ⊢
    refine ⟨hlit.1, ?_⟩
    rw [hT]
    exact hM (hT ▸ hlit.2)
  · right
    exact hIH hrest

/-- Italic replacement cannot create an occurrence of the placeholder
literal. -/
theorem hasSub_replaceItalic : ∀ t : List Char,
    hasSub phOpen (replaceItalic t) = true → hasSub phOpen t = true
  | [], h => by
    rw [replaceItalic_nil] at h
    exact h
  | c :: cs, h => by
    by_cases hc : c = '*'
    · subst hc
      by_cases h1 : (cs.takeWhile (fun x => !(x = '*'))).isEmpty = true
      · rw [replaceItalic_star_copy (fun hp => by rw [hp.1] at h1; cases h1)] at h
        exact hasSub_copy_step (replaceItalic_M cs 1 (by omega) (by omega))
          (hasSub_replaceItalic cs) h
      · have h1f : (cs.takeWhile (fun x => !(x = '*'))).isEmpty = false := by
          revert h1
          cases (cs.takeWhile (fun x => !(x = '*'))).isEmpty <;> simp
        by_cases h2 : litAt ['*'] (cs.dropWhile (fun x => !(x = '*'))) = true
        · obtain ⟨rest2, hD⟩ : ∃ rest2,
              cs.dropWhile (fun x => !(x = '*')) = '*' :: rest2 := by
            cases hd : cs.dropWhile (fun x => !(x = '*')) with
            | nil =>
              rw [hd] at h2
              exact absurd h2 (by decide)
            | cons d ds =>
              rw [hd] at h2
              simp only [litAt, Bool.and_eq_true, decide_eq_true_eq] at h2
              exact ⟨ds, by rw [← h2.1]⟩
          have hdrop : (cs.dropWhile (fun x => !(x = '*'))).drop 1 = rest2 := by
            rw [hD]
            rfl
          have hcs : cs = cs.takeWhile (fun x => !(x = '*')) ++ '*' :: rest2 := by
            conv_lhs => rw [← List.takeWhile_append_dropWhile (fun x => !(x = '*')) cs]
            rw [hD]
          have hltr : rest2.length < cs.length + 1 := by
            have h3 := length_dropWhile_le (fun x => !(x = '*')) cs
            rw [hD] at h3
            simp only [List.length_cons] at h3
            omega
          have hgoal_of_cs : hasSub phOpen cs = true →
              hasSub phOpen ('*' :: cs) = true := by
            intro hx
            simp only [hasSub, Bool.or_eq_true]
            right
            exact hx
          rw [replaceItalic_match h1f h2, hdrop] at h
          simp only [List.append_assoc] at h
          rcases hasSub_append_split h with hR1 | ⟨k, hk, hlitk⟩
          · rcases hasSub_append_split hR1 with hR2 | ⟨k, hk, hlitk⟩
            · rcases hasSub_append_split hR2 with hP2 | ⟨k, hk, hlitk⟩
              · have h5 := hasSub_replaceItalic rest2 hP2
                apply hgoal_of_cs
                rw [hcs]
                refine hasSub_append_right _ ?_
                simp only [hasSub, Bool.or_eq_true]
                right
                exact h5
              · exfalso
                have hk5 : k < 5 := by
                  have he : emClose.length = 5 := by decide
                  omega
                have hfalse :=
                  litAt_eq_false_of_failsEarly (emClose_failsEarly k hk5)
                    (replaceItalic rest2)
                rw [hlitk] at hfalse
                cases hfalse
            · by_cases hxl : 36 ≤ ((cs.takeWhile (fun x => !(x = '*'))).drop k).length
              · rw [litAt_append_of_le _ _ _
                  (by rw [show phOpen.length = 36 from by decide]; omega)] at hlitk
                have h6 : hasSub phOpen
                    ((cs.takeWhile (fun x => !(x = '*'))).drop k) = true :=
                  hasSub_of_litAt hlitk (by decide)
                have h7 : hasSub phOpen (cs.takeWhile (fun x => !(x = '*'))) = true := by
                  conv_lhs => rw [show cs.takeWhile (fun x => !(x = '*')) =
                    (cs.takeWhile (fun x => !(x = '*'))).take k ++
                      (cs.takeWhile (fun x => !(x = '*'))).drop k from
                    (List.take_append_drop k _).symm]
                  exact hasSub_append_right _ h6
                apply hgoal_of_cs
                rw [hcs]
                exact hasSub_append_left h7
              · exfalso
                have hmlt : ((cs.takeWhile (fun x => !(x = '*'))).drop k).length <
                    phOpen.length := by
                  rw [show phOpen.length = 36 from by decide]
                  omega
                have hover := litAt_append_over hlitk hmlt
                have hmpos : 0 < ((cs.takeWhile (fun x => !(x = '*'))).drop k).length := by
                  rw [List.length_drop]
                  omega
                rw [show emClose = '<' :: ("/em>").toList from by decide,
                  List.cons_append] at hover
                have hfe := phOpen_drop_failsEarly
                  ((cs.takeWhile (fun x => !(x = '*'))).drop k).length
                  (by rw [show (36 : Nat) = phOpen.length from by decide]; exact hmlt) hmpos
                have hfalse : litAt
                    (phOpen.drop ((cs.takeWhile (fun x => !(x = '*'))).drop k).length)
                    ('<' :: (("/em>").toList ++ replaceItalic rest2)) = false :=
                  litAt_eq_false_of_failsEarly hfe (("/em>").toList ++ replaceItalic rest2)
                rw [hover] at hfalse
                cases hfalse
          · exfalso
            have hk24 : k < 24 := by
              have he : emOpen.length = 24 := by decide
              omega
            have hfalse :=
              litAt_eq_false_of_failsEarly (emOpen_failsEarly k hk24)
                (cs.takeWhile (fun x => !(x = '*')) ++ (emClose ++ replaceItalic rest2))
            rw [hlitk] at hfalse
            cases hfalse
        · rw [replaceItalic_star_copy (fun hp => h2 hp.2)] at h
          exact hasSub_copy_step (replaceItalic_M cs 1 (by omega) (by omega))
            (hasSub_replaceItalic cs) h
    · rw [replaceItalic_copy hc] at h
      exact hasSub_copy_step (replaceItalic_M cs 1 (by omega) (by omega))
        (hasSub_replaceItalic cs) h
termination_by t => t.length
decreasing_by
  all_goals (simp only [List.length_cons]; omega)

/-- Bold replacement cannot create an occurrence of the placeholder
literal. -/
theorem hasSub_replaceBold : ∀ t : List Char,
    hasSub phOpen (replaceBold t) = true → hasSub phOpen t = true
  | [], h => by
    rw [replaceBold_nil] at h
    exact h
  | [c], h => by
    rw [replaceBold_one] at h
    exact h
  | c :: c2 :: rest, h => by
    by_cases hp : c = '*' ∧ c2 = '*'
    · obtain ⟨rfl, rfl⟩ := hp
      by_cases h1 : (rest.takeWhile (fun x => !(x = '*'))).isEmpty = true
      · rw [replaceBold_star_copy (fun hq => by rw [hq.1] at h1; cases h1)] at h
        exact hasSub_copy_step (replaceBold_M ('*' :: rest) 1 (by omega) (by omega))
          (hasSub_replaceBold ('*' :: rest)) h
      · have h1f : (rest.takeWhile (fun x => !(x = '*'))).isEmpty = false := by
          revert h1
          cases (rest.takeWhile (fun x => !(x = '*'))).isEmpty <;> simp
        by_cases h2 : litAt ['*', '*'] (rest.dropWhile (fun x => !(x = '*'))) = true
        · obtain ⟨rest2, hD⟩ : ∃ rest2,
              rest.dropWhile (fun x => !(x = '*')) = '*' :: '*' :: rest2 := by
            cases hd : rest.dropWhile (fun x => !(x = '*')) with
            | nil =>
              rw [hd] at h2
              exact absurd h2 (by decide)
            | cons d ds =>
              cases ds with
              | nil =>
                rw [hd] at h2
                simp [litAt] at h2
              | cons d2 ds2 =>
                rw [hd] at h2
                simp only [litAt, Bool.and_eq_true, decide_eq_true_eq] at h2
                exact ⟨ds2, by rw [← h2.1, ← h2.2.1]⟩
          have hdrop : (rest.dropWhile (fun x => !(x = '*'))).drop 2 = rest2 := by
            rw [hD]
            rfl
          have hcs : rest = rest.takeWhile (fun x => !(x = '*')) ++ '*' :: '*' :: rest2 := by
            conv_lhs => rw [← List.takeWhile_append_dropWhile (fun x => !(x = '*')) rest]
            rw [hD]
          have hltr : rest2.length < rest.length + 1 + 1 := by
            have h3 := length_dropWhile_le (fun x => !(x = '*')) rest
            rw [hD] at h3
            simp only [List.length_cons] at h3
            omega
          have hgoal_of_rest : hasSub phOpen rest = true →
              hasSub phOpen ('*' :: '*' :: rest) = true := by
            intro hx
            simp only [hasSub, Bool.or_eq_true]
            right
            right
            exact hx
          rw [replaceBold_match h1f h2, hdrop] at h
          simp only [List.append_assoc] at h
          rcases hasSub_append_split h with hR1 | ⟨k, hk, hlitk⟩
          · rcases hasSub_append_split hR1 with hR2 | ⟨k, hk, hlitk⟩
            · rcases hasSub_append_split hR2 with hP2 | ⟨k, hk, hlitk⟩
              · have h5 := hasSub_replaceBold rest2 hP2
                apply hgoal_of_rest
                rw [hcs]
                refine hasSub_append_right _ ?_
                simp only [hasSub, Bool.or_eq_true]
                right
                right
                exact h5
              · exfalso
                have hk9 : k < 9 := by
                  have he : boldClose.length = 9 := by decide
                  omega
                have hfalse :=
                  litAt_eq_false_of_failsEarly (boldClose_failsEarly k hk9)
                    (replaceBold rest2)
                rw [hlitk] at hfalse
                cases hfalse
            · by_cases hxl : 36 ≤ ((rest.takeWhile (fun x => !(x = '*'))).drop k).length
              · rw [litAt_append_of_le _ _ _
                  (by rw [show phOpen.length = 36 from by decide]; omega)] at hlitk
                have h6 : hasSub phOpen
                    ((rest.takeWhile (fun x => !(x = '*'))).drop k) = true :=
                  hasSub_of_litAt hlitk (by decide)
                have h7 : hasSub phOpen (rest.takeWhile (fun x => !(x = '*'))) = true := by
                  conv_lhs => rw [show rest.takeWhile (fun x => !(x = '*')) =
                    (rest.takeWhile (fun x => !(x = '*'))).take k ++
                      (rest.takeWhile (fun x => !(x = '*'))).drop k from
                    (List.take_append_drop k _).symm]
                  exact hasSub_append_right _ h6
                apply hgoal_of_rest
                rw [hcs]
                exact hasSub_append_left h7
              · exfalso
                have hmlt : ((rest.takeWhile (fun x => !(x = '*'))).drop k).length <
                    phOpen.length := by
                  rw [show phOpen.length = 36 from by decide]
                  omega
                have hover := litAt_append_over hlitk hmlt
                have hmpos : 0 < ((rest.takeWhile (fun x => !(x = '*'))).drop k).length := by
                  rw [List.length_drop]
                  omega
                rw [show boldClose = '<' :: ("/strong>").toList from by decide,
                  List.cons_append] at hover
                have hfe := phOpen_drop_failsEarly
                  ((rest.takeWhile (fun x => !(x = '*'))).drop k).length
                  (by rw [show (36 : Nat) = phOpen.length from by decide]; exact hmlt) hmpos
                have hfalse : litAt
                    (phOpen.drop ((rest.takeWhile (fun x => !(x = '*'))).drop k).length)
                    ('<' :: (("/strong>").toList ++ replaceBold rest2)) = false :=
                  litAt_eq_false_of_failsEarly hfe
                    (("/strong>").toList ++ replaceBold rest2)
                rw [hover] at hfalse
                cases hfalse
          · exfalso
            have hk26 : k < 26 := by
              have he : boldOpen.length = 26 := by decide
              omega
            have hfalse :=
              litAt_eq_false_of_failsEarly (boldOpen_failsEarly k hk26)
                (rest.takeWhile (fun x => !(x = '*')) ++ (boldClose ++ replaceBold rest2))
            rw [hlitk] at hfalse
            cases hfalse
        · rw [replaceBold_star_copy (fun hq => h2 hq.2)] at h
          exact hasSub_copy_step (replaceBold_M ('*' :: rest) 1 (by omega) (by omega))
            (hasSub_replaceBold ('*' :: rest)) h
    · rw [replaceBold_copy hp] at h
      exact hasSub_copy_step (replaceBold_M (c2 :: rest) 1 (by omega) (by omega))
        (hasSub_replaceBold (c2 :: rest)) h
termination_by t => t.length
decreasing_by
  all_goals (simp only [List.length_cons]; omega)

theorem buttonsOf_consPiece (c : Char) (ps : List Piece) :
    buttonsOf (consPiece c ps) = buttonsOf ps := by
  cases ps with
  | nil => rfl
  | cons p ps2 => cases p <;> rfl

theorem buttons_citeScan : ∀ t : List Char,
    buttonsOf (citeScan t) = (citeLabels t).map (fun l => (l, labelSeconds l))
  | [] => by
    rw [citeScan_nil, citeLabels_nil]
    rfl
  | c :: cs => by
    cases htc : tryCite (c :: cs) with
    | some pr =>
      obtain ⟨label, rest⟩ := pr
      have hltr : rest.length < cs.length + 1 := by
        have hlen := congrArg List.length (tryCite_decomp htc).1
        simp only [List.length_cons, List.length_append] at hlen
        omega
      rw [citeScan_cons_some htc, citeLabels_cons_some htc]
      simp only [buttonsOf, List.map_cons]
      rw [buttons_citeScan rest]
    | none =>
      rw [citeScan_cons_none htc, citeLabels_cons_none htc, buttonsOf_consPiece]
      exact buttons_citeScan cs
termination_by t => t.length
decreasing_by
  all_goals (simp only [List.length_cons]; omega)

/-- On placeholder-free text the buttons rendered by the full pipeline are
exactly the citations of the raw text, at their `H*3600 + MM*60 + SS`
seconds. -/
theorem buttons_formatText (text : List Char) (hph : hasSub phOpen text = false) :
    buttonsOf (formatText text) =
      (citeLabels text).map (fun l => (l, labelSeconds l)) := by
  have hbu : hasSub phOpen (replaceBold text) = false := by
    cases hx : hasSub phOpen (replaceBold text) with
    | false => rfl
    | true =>
      have h2 := hasSub_replaceBold text hx
      rw [hph] at h2
      cases h2
  have hiu : hasSub phOpen (replaceItalic (replaceBold text)) = false := by
    cases hx : hasSub phOpen (replaceItalic (replaceBold text)) with
    | false => rfl
    | true =>
      have h2 := hasSub_replaceItalic (replaceBold text) hx
      rw [hbu] at h2
      cases h2
  have hsplit := splitScan_replaceCites (replaceItalic (replaceBold text)) hiu
  have hlbl : citeLabels (replaceItalic (replaceBold text)) = citeLabels text := by
    rw [citeLabels_replaceItalic, citeLabels_replaceBold]
  unfold formatText
  by_cases hemp :
      (splitScan (replaceCites (replaceItalic (replaceBold text)))).isEmpty = true
  · rw [if_pos hemp]
    have hnil : splitScan (replaceCites (replaceItalic (replaceBold text))) = [] := by
      revert hemp
      cases splitScan (replaceCites (replaceItalic (replaceBold text))) <;> simp
    rw [hsplit] at hnil
    have hu : replaceItalic (replaceBold text) = [] := by
      cases hu2 : replaceItalic (replaceBold text) with
      | nil => rfl
      | cons x xs =>
        rw [hu2] at hnil
        exact absurd hnil (citeScan_ne_nil x xs)
    have hl0 : citeLabels text = [] := by
      rw [← hlbl, hu, citeLabels_nil]
    rw [hl0]
    rfl
  · rw [if_neg hemp, hsplit, buttons_citeScan, hlbl]

/-- C3: on answer text with no occurrence of the placeholder markup
`<span class="timestamp-placeholder">`, the clickable elements rendered by
`formatText` are exactly, in order, the parenthesised `(H:MM:SS)` citations
of the raw answer text (H one or two digits, MM/SS exactly two digits),
each seeking to H*3600 + MM*60 + SS seconds, and everything else stays
inert text; when the text in addition contains no `*`, the whole rendering
coincides with the one-pass citation scan. -/
theorem c3_citation_exactness (text : List Char)
    (hph : hasSub phOpen text = false) :
    buttonsOf (formatText text) =
      (citeLabels text).map (fun l => (l, labelSeconds l)) ∧
    ((∀ c ∈ text, c ≠ '*') → formatText text = citeScanTop text) :=
  ⟨buttons_formatText text hph, fun hstar => formatText_no_star text hstar hph⟩

/-- Closed instance of `c3_citation_exactness` at a markdown answer that
contains `*` characters and one citation. -/
theorem c3_citation_exactness_witness :
    buttonsOf (formatText (("See *this* at (0:01:30)").toList)) =
      (citeLabels (("See *this* at (0:01:30)").toList)).map
        (fun l => (l, labelSeconds l)) ∧
    ((∀ c ∈ ("See *this* at (0:01:30)").toList, c ≠ '*') →
      formatText (("See *this* at (0:01:30)").toList) =
        citeScanTop (("See *this* at (0:01:30)").toList)) :=
  c3_citation_exactness (("See *this* at (0:01:30)").toList) (by decide)
